import Mathlib

/-!
# Verification of the eventfs work queue (`src/wq.c`)

A shallow embedding of the work-queue unit of eventfs.  The C code is a
single-consumer work queue: producers append intrusive singly-linked
`struct eventfs_wreq` nodes under a mutex, a worker thread swaps the whole
chain out and executes each node's callback outside the lock.

Modelling conventions:
* Pointers are `Nat` addresses; `0` plays the role of `NULL` (a node obtained
  from `malloc` is never at address `0`).
* Process memory holding `eventfs_wreq` nodes is an association list
  `Heap := List (Nat × Wreq)`; `free` removes the entry, `->next` mutation
  rewrites it in place.
* The mutex `work_lock` serialises the critical sections; every critical
  section in the source is straight-line code, so each locked section is
  modelled as one atomic step and the mutex itself carries no state.
* `sem_t work_sem` is modelled by its counter value.  The outcomes of
  `sem_trywait` / `sem_wait` as seen by the worker (success, `EAGAIN`,
  other `errno` values) are supplied by an environment trace
  (`List WaitOutcome`), one entry per iteration of the worker loop.
* Callback function pointers and `void*` payloads are opaque `Nat`s; the
  behaviour of the callbacks is an environment `ret : Nat → Nat → Int`
  giving the status a callback returns on a payload.  Each callback
  invocation, each `eventfs_error` report of a nonzero callback status and
  each FATAL `sem_trywait` report is recorded as an `Event`.
-/

/-- `struct eventfs_wreq` (fields used by `wq.c`): the work callback, its
payload, and the intrusive `next` link (`0` = `NULL`). -/
structure Wreq where
  work : Nat
  work_data : Nat
  next : Nat
deriving DecidableEq, Repr

/-- `struct eventfs_wq` (fields used by `wq.c`): head pointer `work`, tail
pointer `tail`, the semaphore counter `work_sem`, the `running` flag and the
worker thread handle.  The mutex `work_lock` is modelled by atomicity of the
critical sections and carries no state. -/
structure WQ where
  work : Nat
  tail : Nat
  work_sem : Nat
  running : Bool
  thread : Nat
deriving DecidableEq, Repr

/-- Process memory holding `eventfs_wreq` nodes, keyed by address. -/
def Heap := List (Nat × Wreq)
deriving DecidableEq

/-- Dereference an address: the node stored at `a`, if allocated. -/
def heapGet (heap : Heap) (a : Nat) : Option Wreq :=
  match heap with
  | [] => none
  | (b, n) :: rest => if a = b then some n else heapGet rest a

/-- `free(a)`: deallocate the node at address `a`. -/
def heapErase (heap : Heap) (a : Nat) : Heap :=
  match heap with
  | [] => []
  | (b, n) :: rest => if b = a then heapErase rest a else (b, n) :: heapErase rest a

/-- `a->next = nxt`: rewrite the `next` field of the node at address `a`. -/
def heapSetNext (heap : Heap) (a : Nat) (nxt : Nat) : Heap :=
  match heap with
  | [] => []
  | (b, n) :: rest =>
      if b = a then (b, { n with next := nxt }) :: heapSetNext rest a nxt
      else (b, n) :: heapSetNext rest a nxt

/-- The set of allocated addresses. -/
def heapKeys (heap : Heap) : List Nat :=
  match heap with
  | [] => []
  | (b, _) :: rest => b :: heapKeys rest

theorem heapGet_nil (a : Nat) : heapGet [] a = none := rfl

theorem heapGet_cons (b : Nat) (n : Wreq) (rest : Heap) (a : Nat) :
    heapGet ((b, n) :: rest) a = if a = b then some n else heapGet rest a := rfl

/-- Lookup after `free`: the freed address reads as unallocated, others are
unchanged. -/
theorem heapGet_heapErase (heap : Heap) (a b : Nat) :
    heapGet (heapErase heap a) b = if b = a then none else heapGet heap b := by
  induction heap with
  | nil => simp [heapErase, heapGet]
  | cons e rest ih =>
      obtain ⟨c, n⟩ := e
      by_cases hca : c = a
      · subst hca
        by_cases hbc : b = c
        · subst hbc; simp [heapErase, heapGet, ih]
        · simp [heapErase, heapGet, hbc, ih]
      · by_cases hbc : b = c
        · subst hbc
          simp [heapErase, heapGet, hca, Ne.symm hca]
        · simp [heapErase, heapGet, hca, hbc, ih]

/-- Lookup after a `->next` store: address `a` reads the updated node, others
are unchanged. -/
theorem heapGet_heapSetNext (heap : Heap) (a nxt b : Nat) :
    heapGet (heapSetNext heap a nxt) b =
      if b = a then (heapGet heap a).map (fun n => { n with next := nxt })
      else heapGet heap b := by
  induction heap with
  | nil => simp [heapSetNext, heapGet]
  | cons e rest ih =>
      obtain ⟨c, n⟩ := e
      by_cases hca : c = a
      · subst hca
        by_cases hbc : b = c
        · subst hbc; simp [heapSetNext, heapGet, ih]
        · simp [heapSetNext, heapGet, hbc, ih]
      · have hac : a ≠ c := fun h => hca h.symm
        by_cases hbc : b = c
        · subst hbc
          simp [heapSetNext, heapGet, hca, Ne.symm hca, hac]
        · simp [heapSetNext, heapGet, hca, hbc, ih, hac]

theorem heapKeys_heapSetNext (heap : Heap) (a nxt : Nat) :
    heapKeys (heapSetNext heap a nxt) = heapKeys heap := by
  induction heap with
  | nil => rfl
  | cons e rest ih =>
      obtain ⟨c, n⟩ := e
      by_cases hca : c = a <;> simp [heapSetNext, heapKeys, hca, ih]

/-- An address that dereferences is allocated. -/
theorem mem_heapKeys_of_heapGet {heap : Heap} {a : Nat} {n : Wreq}
    (h : heapGet heap a = some n) : a ∈ heapKeys heap := by
  induction heap with
  | nil => simp [heapGet] at h
  | cons e rest ih =>
      obtain ⟨c, m⟩ := e
      by_cases hac : a = c
      · subst hac; simp [heapKeys]
      · simp only [heapGet, if_neg hac] at h
        simp [heapKeys, ih h]

/-- An unallocated address dereferences to `none`. -/
theorem heapGet_eq_none_of_not_mem {heap : Heap} {a : Nat}
    (h : a ∉ heapKeys heap) : heapGet heap a = none := by
  induction heap with
  | nil => rfl
  | cons e rest ih =>
      obtain ⟨c, m⟩ := e
      simp only [heapKeys, List.mem_cons, not_or] at h
      simp [heapGet, h.1, ih h.2]

/-- Freeing a node present in the heap strictly shrinks it (termination
measure for the worker's chain walk). -/
theorem heapErase_length_lt {heap : Heap} {a : Nat} {n : Wreq}
    (h : heapGet heap a = some n) :
    List.length (heapErase heap a) < List.length heap := by
  induction heap with
  | nil => simp [heapGet] at h
  | cons e rest ih =>
      obtain ⟨c, m⟩ := e
      by_cases hac : a = c
      · subst hac
        have hle : List.length (heapErase rest a) ≤ List.length rest := by
          clear h ih
          induction rest with
          | nil => simp [heapErase]
          | cons e' rest' ih' =>
              obtain ⟨d, k⟩ := e'
              by_cases hda : d = a <;> simp [heapErase, hda] <;> omega
        simp only [heapErase, if_pos rfl]
        simpa using Nat.lt_succ_of_le hle
      · simp only [heapGet, if_neg hac] at h
        have hca : c ≠ a := fun hc => hac hc.symm
        simp only [heapErase, if_neg hca, List.length_cons]
        exact Nat.succ_lt_succ (ih h)

/-! ## Linux errno values used by `wq.c` -/

/-- `EAGAIN` (Linux): `sem_trywait` sets `errno = EAGAIN` when the semaphore
count is zero. -/
def EAGAIN : Int := 11

/-- `EINVAL` (Linux): returned (negated) by the lifecycle functions on
misuse. -/
def EINVAL : Int := 22

/-! ## Events observable from the worker and the lifecycle functions -/

/-- Observable events of a run: a callback invocation
`(*wreq->work)(wreq, wreq->work_data)` (recording the node's address, the
callback, the payload and the returned status), the
`eventfs_error("work %p rc = %d", ...)` report of a nonzero callback status,
and the `eventfs_error("FATAL: sem_trywait rc = %d", ...)` report before the
worker loop breaks. -/
inductive Event where
  | invoke (handle work work_data : Nat) (status : Int)
  | workErr (work : Nat) (status : Int)
  | fatalWait (rc : Int)
deriving DecidableEq, Repr

/-- The addresses of the invoked nodes, in invocation order. -/
def invokeHandles (evs : List Event) : List Nat :=
  match evs with
  | [] => []
  | Event.invoke a _ _ _ :: rest => a :: invokeHandles rest
  | Event.workErr _ _ :: rest => invokeHandles rest
  | Event.fatalWait _ :: rest => invokeHandles rest

/-! ## `struct eventfs_wreq` construction and destruction -/

/-- `eventfs_wreq_init` (wq.c:218-225): `memset` the node to zero (so
`next = 0`), store the callback and the payload; returns 0 (always
succeeds). -/
def eventfs_wreq_init (work : Nat) (work_data : Nat) : Wreq × Int :=
  ({ work := work, work_data := work_data, next := 0 }, 0)

/-- `eventfs_wreq_free` (wq.c:228-232): `memset` the node to zero;
returns 0. -/
def eventfs_wreq_free (_wreq : Wreq) : Wreq × Int :=
  ({ work := 0, work_data := 0, next := 0 }, 0)

/-! ## `struct eventfs_wq` lifecycle -/

/-- The all-zero queue structure (`memset(wq, 0, sizeof(struct eventfs_wq))`,
and also what `eventfs_wq_new`'s `calloc` returns). -/
def zeroWQ : WQ :=
  { work := 0, tail := 0, work_sem := 0, running := false, thread := 0 }

/-- `eventfs_wq_new` (wq.c:96-98): `calloc` a zeroed queue structure. -/
def eventfs_wq_new : WQ := zeroWQ

/-- `eventfs_wq_init` (wq.c:105-120): zero the structure, construct the mutex
(the environment `mutex_rc` is `pthread_mutex_init`'s return value; on
failure return `-abs(rc)` with the structure zeroed), then `sem_init` the
semaphore with count 0 (unchecked in the source) and return 0. -/
def eventfs_wq_init (mutex_rc : Int) : WQ × Int :=
  if mutex_rc ≠ 0 then (zeroWQ, -(|mutex_rc|))
  else (zeroWQ, 0)

/-- `eventfs_wq_start` (wq.c:128-153): reject with `-EINVAL` if already
running; otherwise set `running = true` and `pthread_create` the worker.
The environment supplies `pthread_create`'s outcome: `spawn = none` means
success and `new_thread` is the created handle stored through `&wq->thread`;
`spawn = some e` means failure with `errno = e`, in which case `running` is
rolled back to `false` and `-errno` is returned. -/
def eventfs_wq_start (wq : WQ) (spawn : Option Nat) (new_thread : Nat) : WQ × Int :=
  if wq.running then (wq, -EINVAL)
  else
    let wq1 := { wq with running := true }
    match spawn with
    | some e => ({ wq1 with running := false }, -(e : Int))
    | none => ({ wq1 with thread := new_thread }, 0)

/-- `eventfs_wq_stop` (wq.c:159-174): reject with `-EINVAL` if not running;
otherwise set `running = false`, `sem_post` the semaphore to wake the worker,
then `pthread_cancel` and `pthread_join` the worker thread (the thread handle
field itself is not modified). -/
def eventfs_wq_stop (wq : WQ) : WQ × Int :=
  if ¬wq.running then (wq, -EINVAL)
  else ({ wq with running := false, work_sem := wq.work_sem + 1 }, 0)

/-! ## Enqueue -/

/-- `eventfs_wq_add` (wq.c:236-261): under `work_lock`, if the chain is empty
(`wq->work == NULL`) the request becomes both head and tail; otherwise it is
linked after the current tail (`wq->tail->next = wreq`) and becomes the new
tail.  After unlocking, since `rc == 0`, `sem_post` increments the semaphore.
Returns `rc = 0` (the function has no failure path). -/
def eventfs_wq_add (wq : WQ) (heap : Heap) (wreq : Nat) : WQ × Heap × Int :=
  let rc : Int := 0
  let step : WQ × Heap :=
    if wq.work = 0 then
      ({ wq with work := wreq, tail := wreq }, heap)
    else
      ({ wq with tail := wreq }, heapSetNext heap wq.tail wreq)
  let wq1 := step.1
  let heap1 := step.2
  let wq2 := if rc = 0 then { wq1 with work_sem := wq1.work_sem + 1 } else wq1
  (wq2, heap1, rc)

/-! ## The worker's chain walk (wq.c:69-88) -/

/-- One node's observable events: the `invoke` record of
`rc = (*work_itr->work)(work_itr, work_itr->work_data)`, followed by the
`eventfs_error("work %p rc = %d", ...)` report when `rc != 0`. -/
def nodeEvents (ret : Nat → Nat → Int) (a : Nat) (n : Wreq) : List Event :=
  let st := ret n.work n.work_data
  Event.invoke a n.work n.work_data st ::
    (if st ≠ 0 then [Event.workErr n.work st] else [])

/-- The inner `while (work_itr != NULL)` loop of `eventfs_wq_main`
(wq.c:69-88): invoke the node's callback, report a nonzero status, read
`next = work_itr->next`, then `eventfs_wreq_free` + `eventfs_safe_free` the
node (modelled as deallocation) and advance.  A `NULL` cursor, or a cursor
that does not dereference, ends the walk. -/
def processChain (ret : Nat → Nat → Int) (heap : Heap) (ptr : Nat) :
    Heap × List Event :=
  if h0 : ptr = 0 then (heap, [])
  else
    match hm : heapGet heap ptr with
    | none => (heap, [])
    | some n =>
        let rest := processChain ret (heapErase heap ptr) n.next
        (rest.1, nodeEvents ret ptr n ++ rest.2)
termination_by List.length heap
decreasing_by exact heapErase_length_lt hm

/-! ## The worker loop (wq.c:25-92) -/

/-- The outcome of one pass through the worker's wait step, supplied by the
environment: either `sem_trywait` succeeded (`tryOk`), or it failed with
`errno = e` (`tryFail e wres`).  In the latter case, when `e = EAGAIN` the
source calls the blocking `sem_wait`, whose outcome `wres` (`none` = success,
`some e2` = failure with `errno = e2`) is not inspected by the source. -/
inductive WaitOutcome where
  | tryOk
  | tryFail (e : Nat) (wres : Option Nat)
deriving DecidableEq, Repr

/-- The wait step at the top of the worker loop (wq.c:36-52): `sem_trywait`;
on failure `rc = -errno`; if `rc == -EAGAIN`, block in `sem_wait` (its return
value is ignored by the source); any other failure is fatal and breaks the
loop.  Returns the queue with the semaphore count updated and `some rc` when
the loop must break with the FATAL report. -/
def wq_wait_step (wq : WQ) (o : WaitOutcome) : WQ × Option Int :=
  match o with
  | WaitOutcome.tryOk => ({ wq with work_sem := wq.work_sem - 1 }, none)
  | WaitOutcome.tryFail e wres =>
      if -(e : Int) = -EAGAIN then
        match wres with
        | none => ({ wq with work_sem := wq.work_sem - 1 }, none)
        | some _ => (wq, none)
      else (wq, some (-(e : Int)))

/-- One iteration of the worker's `while (wq->running)` loop (wq.c:34-89):
check `running`; run the wait step (a fatal wait failure emits the FATAL
report and breaks); re-check `running` (the "cancelled?" test); under
`work_lock` capture `wq->work` and set `wq->work = NULL`, `wq->tail = NULL`;
then walk the detached chain outside the lock.  The returned `Bool` is
`false` when the loop exits (`break` or the `while` condition failing). -/
def wq_main_iter (ret : Nat → Nat → Int) (wq : WQ) (heap : Heap)
    (o : WaitOutcome) : WQ × Heap × List Event × Bool :=
  if wq.running then
    match wq_wait_step wq o with
    | (wq1, some rc) => (wq1, heap, [Event.fatalWait rc], false)
    | (wq1, none) =>
        if wq1.running then
          let swapped := { wq1 with work := 0, tail := 0 }
          let walked := processChain ret heap wq1.work
          (swapped, walked.1, walked.2, true)
        else (wq1, heap, [], false)
  else (wq, heap, [], false)

/-- `eventfs_wq_main` (wq.c:25-92) over a finite trace of wait outcomes, one
per loop iteration: iterate `wq_main_iter` until the loop exits or the trace
is exhausted, accumulating the observable events. -/
def eventfs_wq_main (ret : Nat → Nat → Int) (wq : WQ) (heap : Heap) :
    List WaitOutcome → WQ × Heap × List Event
  | [] => (wq, heap, [])
  | o :: rest =>
      let it := wq_main_iter ret wq heap o
      if it.2.2.2 then
        let cont := eventfs_wq_main ret it.1 it.2.1 rest
        (cont.1, cont.2.1, it.2.2.1 ++ cont.2.2)
      else (it.1, it.2.1, it.2.2.1)

/-! ## Teardown -/

/-- The inner loop of `eventfs_wq_queue_free` (wq.c:178-193): walk the chain,
reading `next = wqueue->next` and then `eventfs_wreq_free` +
`eventfs_safe_free` each node, invoking no callback; returns 0.  The event
list it produces is empty: the source contains no callback call. -/
def eventfs_wq_queue_free (heap : Heap) (ptr : Nat) : Heap × List Event × Int :=
  if h0 : ptr = 0 then (heap, [], 0)
  else
    match hm : heapGet heap ptr with
    | none => (heap, [], 0)
    | some n => eventfs_wq_queue_free (heapErase heap ptr) n.next
termination_by List.length heap
decreasing_by exact heapErase_length_lt hm

/-- `eventfs_wq_free` (wq.c:199-214): reject with `-EINVAL` if running;
otherwise release every node still on `wq->work` via
`eventfs_wq_queue_free`, destroy the mutex and the semaphore, and `memset`
the structure to zero; returns 0. -/
def eventfs_wq_free (wq : WQ) (heap : Heap) : WQ × Heap × List Event × Int :=
  if wq.running then (wq, heap, [], -EINVAL)
  else
    let freed := eventfs_wq_queue_free heap wq.work
    (zeroWQ, freed.1, freed.2.1, 0)

/-! ## The pending chain as a list of addresses -/

/-- `Chain heap p as`: starting from pointer `p` and following `next` links,
the heap contains a `NULL`-terminated chain of nodes exactly at the addresses
`as` (in order).  This is the well-formedness the source maintains for
`wq->work`. -/
inductive Chain (heap : Heap) : Nat → List Nat → Prop where
  | nil : Chain heap 0 []
  | cons {a : Nat} {n : Wreq} {as : List Nat} :
      a ≠ 0 → heapGet heap a = some n → Chain heap n.next as →
      Chain heap a (a :: as)

theorem Chain.ptr_eq_zero {heap : Heap} {p : Nat} (h : Chain heap p []) :
    p = 0 := by cases h; rfl

theorem Chain.head_eq {heap : Heap} {p a : Nat} {as : List Nat}
    (h : Chain heap p (a :: as)) : p = a := by cases h; rfl

/-- Every chain address dereferences to a node. -/
theorem Chain.get_ne_none {heap : Heap} {p : Nat} {as : List Nat}
    (h : Chain heap p as) : ∀ a ∈ as, ∃ n, heapGet heap a = some n := by
  induction h with
  | nil => intro a ha; simp at ha
  | cons h1 h2 h3 ih =>
      intro b hb
      rcases List.mem_cons.mp hb with hb | hb
      · subst hb; exact ⟨_, h2⟩
      · exact ih b hb

/-- Every chain address is allocated. -/
theorem Chain.subset_keys {heap : Heap} {p : Nat} {as : List Nat}
    (h : Chain heap p as) : ∀ a ∈ as, a ∈ heapKeys heap := by
  intro a ha
  obtain ⟨n, hn⟩ := h.get_ne_none a ha
  exact mem_heapKeys_of_heapGet hn

/-- Every chain address is nonzero. -/
theorem Chain.ne_zero {heap : Heap} {p : Nat} {as : List Nat}
    (h : Chain heap p as) : ∀ a ∈ as, a ≠ 0 := by
  induction h with
  | nil => intro a ha; simp at ha
  | cons h1 h2 h3 ih =>
      intro b hb
      rcases List.mem_cons.mp hb with hb | hb
      · subst hb; exact h1
      · exact ih b hb

/-- A chain is untouched by freeing an address outside it. -/
theorem Chain.erase_outside {heap : Heap} {p b : Nat} {as : List Nat}
    (h : Chain heap p as) (hb : b ∉ as) : Chain (heapErase heap b) p as := by
  induction h with
  | nil => exact Chain.nil
  | cons h1 h2 h3 ih =>
      rename_i a n as'
      have hab : a ≠ b := fun hab => hb (hab ▸ List.mem_cons_self a as')
      refine Chain.cons h1 ?_ (ih fun hmem => hb (List.mem_cons_of_mem _ hmem))
      rw [heapGet_heapErase, if_neg hab]
      exact h2

/-- A chain is untouched by a `->next` store to an address outside it. -/
theorem Chain.setNext_outside {heap : Heap} {p b nxt : Nat} {as : List Nat}
    (h : Chain heap p as) (hb : b ∉ as) :
    Chain (heapSetNext heap b nxt) p as := by
  induction h with
  | nil => exact Chain.nil
  | cons h1 h2 h3 ih =>
      rename_i a n as'
      have hab : a ≠ b := fun hab => hb (hab ▸ List.mem_cons_self a as')
      refine Chain.cons h1 ?_ (ih fun hmem => hb (List.mem_cons_of_mem _ hmem))
      rw [heapGet_heapSetNext, if_neg hab]
      exact h2

/-- A chain is untouched by allocating a fresh node. -/
theorem Chain.alloc_outside {heap : Heap} {p b : Nat} {m : Wreq} {as : List Nat}
    (h : Chain heap p as) (hb : b ∉ as) : Chain ((b, m) :: heap) p as := by
  induction h with
  | nil => exact Chain.nil
  | cons h1 h2 h3 ih =>
      rename_i a n as'
      have hab : a ≠ b := fun hab => hb (hab ▸ List.mem_cons_self a as')
      refine Chain.cons h1 ?_ (ih fun hmem => hb (List.mem_cons_of_mem _ hmem))
      rw [heapGet_cons, if_neg hab]
      exact h2

/-- The last address of a chain, `0` for the empty chain: the value the
source keeps in `wq->tail`. -/
def chainLast (as : List Nat) : Nat := as.foldl (fun _ a => a) 0

theorem chainLast_nil : chainLast [] = 0 := rfl

theorem chainLast_concat (as : List Nat) (w : Nat) :
    chainLast (as ++ [w]) = w := by
  simp [chainLast, List.foldl_append]

theorem foldl_pick_ne_nil {as : List Nat} (h : as ≠ []) (i j : Nat) :
    as.foldl (fun _ a => a) i = as.foldl (fun _ a => a) j := by
  induction as generalizing i j with
  | nil => exact absurd rfl h
  | cons a as' ih =>
      cases as' with
      | nil => rfl
      | cons b t => simp only [List.foldl_cons]

theorem chainLast_cons_of_ne_nil {as : List Nat} (h : as ≠ []) (a : Nat) :
    chainLast (a :: as) = chainLast as := by
  simp only [chainLast, List.foldl_cons]
  exact foldl_pick_ne_nil h a 0

/-! ## Unfolding equations for the chain walks -/

theorem processChain_zero (ret : Nat → Nat → Int) (heap : Heap) :
    processChain ret heap 0 = (heap, []) := by
  unfold processChain
  simp

theorem processChain_none (ret : Nat → Nat → Int) (heap : Heap) {ptr : Nat}
    (h0 : ptr ≠ 0) (hm : heapGet heap ptr = none) :
    processChain ret heap ptr = (heap, []) := by
  unfold processChain
  rw [dif_neg h0]
  split <;> simp_all

theorem processChain_some (ret : Nat → Nat → Int) (heap : Heap) {ptr : Nat}
    {n : Wreq} (h0 : ptr ≠ 0) (hm : heapGet heap ptr = some n) :
    processChain ret heap ptr =
      ((processChain ret (heapErase heap ptr) n.next).1,
       nodeEvents ret ptr n ++ (processChain ret (heapErase heap ptr) n.next).2) := by
  conv_lhs => unfold processChain
  rw [dif_neg h0]
  split <;> simp_all

theorem eventfs_wq_queue_free_zero (heap : Heap) :
    eventfs_wq_queue_free heap 0 = (heap, [], 0) := by
  unfold eventfs_wq_queue_free
  simp

theorem eventfs_wq_queue_free_none (heap : Heap) {ptr : Nat}
    (h0 : ptr ≠ 0) (hm : heapGet heap ptr = none) :
    eventfs_wq_queue_free heap ptr = (heap, [], 0) := by
  unfold eventfs_wq_queue_free
  rw [dif_neg h0]
  split <;> simp_all

theorem eventfs_wq_queue_free_some (heap : Heap) {ptr : Nat} {n : Wreq}
    (h0 : ptr ≠ 0) (hm : heapGet heap ptr = some n) :
    eventfs_wq_queue_free heap ptr =
      eventfs_wq_queue_free (heapErase heap ptr) n.next := by
  conv_lhs => unfold eventfs_wq_queue_free
  rw [dif_neg h0]
  split <;> simp_all

/-! ## Events of a chain walk -/

/-- The events the worker's chain walk produces for the addresses `as`, read
off against a fixed heap. -/
def chainEvents (ret : Nat → Nat → Int) (heap : Heap) : List Nat → List Event
  | [] => []
  | a :: rest =>
      (match heapGet heap a with
       | some n => nodeEvents ret a n
       | none => []) ++ chainEvents ret heap rest

theorem chainEvents_congr (ret : Nat → Nat → Int) {heap heap' : Heap}
    {as : List Nat} (h : ∀ a ∈ as, heapGet heap' a = heapGet heap a) :
    chainEvents ret heap' as = chainEvents ret heap as := by
  induction as with
  | nil => rfl
  | cons a rest ih =>
      simp only [chainEvents, h a (List.mem_cons_self a rest)]
      rw [ih fun b hb => h b (List.mem_cons_of_mem a hb)]

theorem invokeHandles_append (l l' : List Event) :
    invokeHandles (l ++ l') = invokeHandles l ++ invokeHandles l' := by
  induction l with
  | nil => rfl
  | cons e rest ih => cases e <;> simp [invokeHandles, ih]

theorem invokeHandles_nodeEvents (ret : Nat → Nat → Int) (a : Nat) (n : Wreq) :
    invokeHandles (nodeEvents ret a n) = [a] := by
  by_cases h : ret n.work n.work_data ≠ 0 <;> simp [nodeEvents, invokeHandles, h]

/-- On a well-formed chain the walk's invocation order is exactly the chain
order. -/
theorem invokeHandles_chainEvents (ret : Nat → Nat → Int) {heap : Heap}
    {p : Nat} {as : List Nat} (h : Chain heap p as) :
    invokeHandles (chainEvents ret heap as) = as := by
  induction as generalizing p with
  | nil => rfl
  | cons a rest ih =>
      cases h with
      | cons h1 h2 h3 =>
          simp only [chainEvents, h2, invokeHandles_append,
            invokeHandles_nodeEvents]
          rw [ih h3, List.singleton_append]

/-- Specification of the worker's chain walk (wq.c:69-88) on a well-formed
chain: the events are those of the chain in order, and exactly the chain's
nodes are freed. -/
theorem processChain_spec (ret : Nat → Nat → Int) {heap : Heap} {p : Nat}
    {as : List Nat} (h : Chain heap p as) (hnd : as.Nodup) :
    (processChain ret heap p).2 = chainEvents ret heap as ∧
    ∀ b, heapGet (processChain ret heap p).1 b =
      if b ∈ as then none else heapGet heap b := by
  induction as generalizing heap p with
  | nil =>
      have hp := h.ptr_eq_zero
      subst hp
      simp [processChain_zero, chainEvents]
  | cons a rest ih =>
      cases h with
      | cons h1 h2 h3 =>
          rename_i n
          have hmem : a ∉ rest := (List.nodup_cons.mp hnd).1
          have hch : Chain (heapErase heap a) n.next rest := h3.erase_outside hmem
          have hnd' : rest.Nodup := (List.nodup_cons.mp hnd).2
          obtain ⟨ihe, ihh⟩ := ih hch hnd'
          rw [processChain_some ret heap h1 h2]
          constructor
          · simp only [ihe, chainEvents, h2]
            congr 1
            exact chainEvents_congr ret fun b hb => by
              rw [heapGet_heapErase,
                if_neg (show b ≠ a from fun hba => hmem (hba ▸ hb))]
          · intro b
            rw [ihh b, heapGet_heapErase]
            by_cases hba : b = a
            · subst hba
              simp [hmem]
            · by_cases hbr : b ∈ rest <;> simp [hba, hbr]

/-- Specification of the teardown chain walk (wq.c:178-193) on a well-formed
chain: no events (no callback runs), exactly the chain's nodes are freed,
and the return code is 0. -/
theorem eventfs_wq_queue_free_spec {heap : Heap} {p : Nat} {as : List Nat}
    (h : Chain heap p as) (hnd : as.Nodup) :
    (eventfs_wq_queue_free heap p).2.1 = [] ∧
    (eventfs_wq_queue_free heap p).2.2 = 0 ∧
    ∀ b, heapGet (eventfs_wq_queue_free heap p).1 b =
      if b ∈ as then none else heapGet heap b := by
  induction as generalizing heap p with
  | nil =>
      have hp := h.ptr_eq_zero
      subst hp
      simp [eventfs_wq_queue_free_zero]
  | cons a rest ih =>
      cases h with
      | cons h1 h2 h3 =>
          rename_i n
          have hmem : a ∉ rest := (List.nodup_cons.mp hnd).1
          have hch : Chain (heapErase heap a) n.next rest := h3.erase_outside hmem
          have hnd' : rest.Nodup := (List.nodup_cons.mp hnd).2
          obtain ⟨ihe, ihr, ihh⟩ := ih hch hnd'
          rw [eventfs_wq_queue_free_some heap h1 h2]
          refine ⟨ihe, ihr, ?_⟩
          intro b
          rw [ihh b, heapGet_heapErase]
          by_cases hba : b = a
          · subst hba
            simp [hmem]
          · by_cases hbr : b ∈ rest <;> simp [hba, hbr]

/-! ## Enqueue appends to the chain -/

theorem chainLast_mem {as : List Nat} (h : as ≠ []) : chainLast as ∈ as := by
  induction as with
  | nil => exact absurd rfl h
  | cons a rest ih =>
      cases hr : rest with
      | nil => simp [chainLast]
      | cons b t =>
          rw [chainLast_cons_of_ne_nil (by simp [hr])]
          exact List.mem_cons_of_mem a (hr ▸ ih (by simp [hr]))

theorem exists_heapGet_of_mem_keys {heap : Heap} {b : Nat}
    (h : b ∈ heapKeys heap) : ∃ n, heapGet heap b = some n := by
  induction heap with
  | nil => simp [heapKeys] at h
  | cons e rest ih =>
      obtain ⟨c, m⟩ := e
      by_cases hbc : b = c
      · exact ⟨m, by simp [heapGet, hbc]⟩
      · simp only [heapKeys, List.mem_cons] at h
        rcases h with h | h
        · exact absurd h hbc
        · obtain ⟨n, hn⟩ := ih h
          exact ⟨n, by simp [heapGet, hbc, hn]⟩

/-- Linking a fresh null-terminated node after the last node of a chain
(`wq->tail->next = wreq`) extends the chain by that node. -/
theorem Chain.snoc_setNext {heap : Heap} {p w : Nat} {nw : Wreq}
    {as : List Nat} (h : Chain heap p as) (hnd : as.Nodup) (hne : as ≠ [])
    (hw0 : w ≠ 0) (hwas : w ∉ as)
    (hget : heapGet heap w = some nw) (hnext : nw.next = 0) :
    Chain (heapSetNext heap (chainLast as) w) p (as ++ [w]) := by
  induction as generalizing p with
  | nil => exact absurd rfl hne
  | cons a rest ih =>
      cases h with
      | cons h1 h2 h3 =>
          rename_i n
          have hwa : w ≠ a := fun hh => hwas (by simp [hh])
          by_cases hr : rest = []
          · subst hr
            have hn0 : n.next = 0 := h3.ptr_eq_zero
            have hla : chainLast [a] = a := rfl
            rw [hla]
            refine Chain.cons (n := { n with next := w }) h1 ?_ ?_
            · rw [heapGet_heapSetNext, if_pos rfl, h2]
              rfl
            · show Chain (heapSetNext heap a w) w [w]
              refine Chain.cons (n := nw) hw0 ?_ ?_
              · rw [heapGet_heapSetNext, if_neg hwa]
                exact hget
              · rw [hnext]
                exact Chain.nil
          · have ha_rest : a ∉ rest := (List.nodup_cons.mp hnd).1
            have hat : a ≠ chainLast rest :=
              fun hh => ha_rest (hh ▸ chainLast_mem hr)
            rw [chainLast_cons_of_ne_nil hr]
            refine Chain.cons (n := n) h1 ?_ ?_
            · rw [heapGet_heapSetNext, if_neg hat]
              exact h2
            · exact ih h3 (List.nodup_cons.mp hnd).2 hr
                (fun hh => hwas (List.mem_cons_of_mem a hh))

/-- Well-formed queue state: `wq->work` points at a duplicate-free
null-terminated chain of allocated nodes with addresses `as`, and `wq->tail`
is the last of them (`0` when the chain is empty). -/
def WQchain (wq : WQ) (heap : Heap) (as : List Nat) : Prop :=
  Chain heap wq.work as ∧ as.Nodup ∧ wq.tail = chainLast as

theorem WQchain_empty_work {wq : WQ} {heap : Heap} {as : List Nat}
    (h : WQchain wq heap as) (hz : wq.work = 0) : as = [] := by
  obtain ⟨hc, -, -⟩ := h
  rw [hz] at hc
  cases hc with
  | nil => rfl
  | cons h1 h2 h3 => exact absurd rfl h1

theorem WQchain_nonempty_work {wq : WQ} {heap : Heap} {as : List Nat}
    (h : WQchain wq heap as) (hz : wq.work ≠ 0) : as ≠ [] := by
  obtain ⟨hc, -, -⟩ := h
  intro hnil
  subst hnil
  exact hz hc.ptr_eq_zero

/-- Effect of `eventfs_wq_add` on a well-formed queue when the node being
enqueued is already allocated, null-terminated and off the chain: the chain
gains the node at the back, the semaphore count rises by one, the other
fields and the allocated addresses are untouched, and the call returns 0. -/
theorem eventfs_wq_add_spec {wq : WQ} {heap : Heap} {as : List Nat}
    {w : Nat} {nw : Wreq} (h : WQchain wq heap as) (hw0 : w ≠ 0)
    (hwas : w ∉ as) (hget : heapGet heap w = some nw) (hnext : nw.next = 0) :
    WQchain (eventfs_wq_add wq heap w).1 (eventfs_wq_add wq heap w).2.1
        (as ++ [w]) ∧
    (eventfs_wq_add wq heap w).1.work_sem = wq.work_sem + 1 ∧
    (eventfs_wq_add wq heap w).1.running = wq.running ∧
    (eventfs_wq_add wq heap w).1.thread = wq.thread ∧
    (eventfs_wq_add wq heap w).2.2 = 0 ∧
    heapKeys (eventfs_wq_add wq heap w).2.1 = heapKeys heap ∧
    heapGet (eventfs_wq_add wq heap w).2.1 w = some nw := by
  obtain ⟨hc, hnd, ht⟩ := h
  have hndw : (as ++ [w]).Nodup := by
    simp [List.nodup_append, hnd, hwas]
  by_cases hz : wq.work = 0
  · have hnil : as = [] := WQchain_empty_work ⟨hc, hnd, ht⟩ hz
    subst hnil
    have hadd : eventfs_wq_add wq heap w =
        ({ wq with work := w, tail := w, work_sem := wq.work_sem + 1 },
         heap, 0) := by
      simp [eventfs_wq_add, hz]
    rw [hadd]
    refine ⟨⟨?_, hndw, rfl⟩, rfl, rfl, rfl, rfl, rfl, hget⟩
    show Chain heap w [w]
    exact Chain.cons hw0 hget (hnext ▸ Chain.nil)
  · have hne : as ≠ [] := WQchain_nonempty_work ⟨hc, hnd, ht⟩ hz
    have hadd : eventfs_wq_add wq heap w =
        ({ wq with tail := w, work_sem := wq.work_sem + 1 },
         heapSetNext heap wq.tail w, 0) := by
      simp [eventfs_wq_add, hz]
    rw [hadd]
    have hchain : Chain (heapSetNext heap wq.tail w) wq.work (as ++ [w]) := by
      rw [ht]
      exact hc.snoc_setNext hnd hne hw0 hwas hget hnext
    have hwtail : w ≠ wq.tail := by
      rw [ht]
      exact fun hh => hwas (hh ▸ chainLast_mem hne)
    refine ⟨⟨hchain, hndw, (chainLast_concat as w).symm⟩, rfl, rfl, rfl, rfl,
      heapKeys_heapSetNext heap wq.tail w, ?_⟩
    rw [heapGet_heapSetNext, if_neg hwtail]
    exact hget

/-! ## A producer's submission -/

/-- A producer's complete submission, the usage pattern `eventfs_wq_add`'s
contract requires ("the work queue takes ownership of the wreq, so it must
be malloc'ed"): allocate a fresh node at address `w`, construct it with
`eventfs_wreq_init(wreq, cb, data)`, then hand it over with
`eventfs_wq_add`. -/
def submitReq (wq : WQ) (heap : Heap) (w cb data : Nat) : WQ × Heap :=
  let heap1 : Heap := (w, (eventfs_wreq_init cb data).1) :: heap
  let r := eventfs_wq_add wq heap1 w
  (r.1, r.2.1)

/-- A submission of a fresh nonzero address onto a well-formed queue appends
the node to the chain, bumps the semaphore, allocates exactly the new
address and leaves the other queue fields alone. -/
theorem submitReq_spec {wq : WQ} {heap : Heap} {as : List Nat} {w : Nat}
    (h : WQchain wq heap as) (hw0 : w ≠ 0) (hfresh : w ∉ heapKeys heap)
    (cb data : Nat) :
    WQchain (submitReq wq heap w cb data).1 (submitReq wq heap w cb data).2
        (as ++ [w]) ∧
    (submitReq wq heap w cb data).1.work_sem = wq.work_sem + 1 ∧
    (submitReq wq heap w cb data).1.running = wq.running ∧
    (submitReq wq heap w cb data).1.thread = wq.thread ∧
    heapKeys (submitReq wq heap w cb data).2 = w :: heapKeys heap ∧
    heapGet (submitReq wq heap w cb data).2 w =
      some { work := cb, work_data := data, next := 0 } := by
  obtain ⟨hc, hnd, ht⟩ := h
  have hwas : w ∉ as := fun hmem => hfresh (hc.subset_keys w hmem)
  have hc1 : Chain ((w, (eventfs_wreq_init cb data).1) :: heap) wq.work as :=
    hc.alloc_outside hwas
  have hget1 : heapGet ((w, (eventfs_wreq_init cb data).1) :: heap) w =
      some { work := cb, work_data := data, next := 0 } := by
    simp [heapGet_cons, eventfs_wreq_init]
  obtain ⟨hch, hsem, hrun, hth, -, hkeys, hget⟩ :=
    eventfs_wq_add_spec ⟨hc1, hnd, ht⟩ hw0 hwas hget1 rfl
  refine ⟨hch, hsem, hrun, hth, ?_, hget⟩
  rw [show (submitReq wq heap w cb data).2 =
      (eventfs_wq_add wq ((w, (eventfs_wreq_init cb data).1) :: heap) w).2.1
      from rfl]
  rw [hkeys]
  rfl

/-! ## Worker-loop iteration lemmas -/

/-- The wait step only touches the semaphore count. -/
theorem wq_wait_step_fields (wq : WQ) (o : WaitOutcome) :
    (wq_wait_step wq o).1.work = wq.work ∧
    (wq_wait_step wq o).1.tail = wq.tail ∧
    (wq_wait_step wq o).1.running = wq.running ∧
    (wq_wait_step wq o).1.thread = wq.thread := by
  cases o with
  | tryOk => exact ⟨rfl, rfl, rfl, rfl⟩
  | tryFail e wres =>
      by_cases he : -(e : Int) = -EAGAIN
      · cases wres <;> simp [wq_wait_step, he]
      · simp [wq_wait_step, he]

/-- An iteration that begins with `running` already false exits the loop at
the `while` test, doing nothing. -/
theorem wq_main_iter_stopped (ret : Nat → Nat → Int) (wq : WQ) (heap : Heap)
    (o : WaitOutcome) (hr : wq.running = false) :
    wq_main_iter ret wq heap o = (wq, heap, [], false) := by
  unfold wq_main_iter
  rw [hr]
  simp

/-- An iteration whose wait step fails fatally reports the FATAL error and
breaks out of the loop without draining anything. -/
theorem wq_main_iter_fatal (ret : Nat → Nat → Int) (wq : WQ) (heap : Heap)
    (o : WaitOutcome) (rc : Int) (hr : wq.running = true)
    (hf : (wq_wait_step wq o).2 = some rc) :
    wq_main_iter ret wq heap o =
      ((wq_wait_step wq o).1, heap, [Event.fatalWait rc], false) := by
  unfold wq_main_iter
  rw [hr]
  simp only [if_true]
  split
  · rename_i wq1 rc' heq
    rw [heq] at hf
    simp only at hf
    have h1 : wq1 = (wq_wait_step wq o).1 := by rw [heq]
    have h2 : rc' = rc := by injection hf
    rw [h1, h2]
  · rename_i wq1 heq
    rw [heq] at hf
    simp at hf

/-- An iteration whose wait step succeeds (or blocks and returns) detaches
the whole chain under the lock and walks it: the head and tail are reset to
`NULL`, the chain's nodes are freed and their events emitted, and the loop
continues. -/
theorem wq_main_iter_drain (ret : Nat → Nat → Int) (wq : WQ) (heap : Heap)
    (o : WaitOutcome) (hr : wq.running = true)
    (hnf : (wq_wait_step wq o).2 = none) :
    wq_main_iter ret wq heap o =
      ({ (wq_wait_step wq o).1 with work := 0, tail := 0 },
       (processChain ret heap wq.work).1,
       (processChain ret heap wq.work).2, true) := by
  obtain ⟨hw, htl, hrn, hth⟩ := wq_wait_step_fields wq o
  unfold wq_main_iter
  rw [hr]
  simp only [if_true]
  split
  · rename_i wq1 rc' heq
    rw [heq] at hnf
    simp at hnf
  · rename_i wq1 heq
    have h1 : wq1 = (wq_wait_step wq o).1 := by rw [heq]
    subst h1
    rw [hrn, hr, hw]
    simp

/-- One-step unfolding of the worker loop over a nonempty trace. -/
theorem eventfs_wq_main_cons (ret : Nat → Nat → Int) (wq : WQ) (heap : Heap)
    (o : WaitOutcome) (rest : List WaitOutcome) :
    eventfs_wq_main ret wq heap (o :: rest) =
      (fun it =>
        if it.2.2.2 then
          (fun cont => (cont.1, cont.2.1, it.2.2.1 ++ cont.2.2))
            (eventfs_wq_main ret it.1 it.2.1 rest)
        else (it.1, it.2.1, it.2.2.1)) (wq_main_iter ret wq heap o) := rfl

/-- A worker whose `running` flag is false does nothing over any trace. -/
theorem eventfs_wq_main_stopped (ret : Nat → Nat → Int) (wq : WQ)
    (heap : Heap) (orc : List WaitOutcome) (hr : wq.running = false) :
    eventfs_wq_main ret wq heap orc = (wq, heap, []) := by
  cases orc with
  | nil => rfl
  | cons o rest =>
      rw [eventfs_wq_main_cons, wq_main_iter_stopped ret wq heap o hr]
      simp

/-- A worker whose pending chain is empty never invokes anything and never
touches the heap, and its head pointer stays `NULL`, over any trace. -/
theorem eventfs_wq_main_empty_work (ret : Nat → Nat → Int) {wq : WQ}
    (heap : Heap) (orc : List WaitOutcome) (hw : wq.work = 0) :
    (eventfs_wq_main ret wq heap orc).2.1 = heap ∧
    invokeHandles (eventfs_wq_main ret wq heap orc).2.2 = [] ∧
    (eventfs_wq_main ret wq heap orc).1.work = 0 := by
  induction orc generalizing wq with
  | nil => exact ⟨rfl, rfl, hw⟩
  | cons o rest ih =>
      cases hrun : wq.running with
      | false =>
          rw [eventfs_wq_main_stopped ret wq heap _ hrun]
          exact ⟨rfl, rfl, hw⟩
      | true =>
          obtain ⟨hwf, -, -, -⟩ := wq_wait_step_fields wq o
          cases hnf : (wq_wait_step wq o).2 with
          | some rc =>
              rw [eventfs_wq_main_cons,
                wq_main_iter_fatal ret wq heap o rc hrun hnf]
              exact ⟨rfl, rfl, hwf.trans hw⟩
          | none =>
              rw [eventfs_wq_main_cons,
                wq_main_iter_drain ret wq heap o hrun hnf]
              rw [hw, processChain_zero]
              simp only [if_true]
              obtain ⟨ih1, ih2, ih3⟩ := @ih
                { (wq_wait_step wq o).1 with work := 0, tail := 0 } rfl
              exact ⟨ih1, by simp [invokeHandles_append, ih2], ih3⟩

/-! ## Interleaved runs: one producer against the worker

A run interleaves producer submissions with iterations of the worker loop.
One worker iteration is taken as atomic: its only access to shared state
(the batch detach) is a `work_lock` critical section, and the walk of the
detached batch touches only nodes that are no longer reachable from the
queue, so any interleaving of `eventfs_wq_add` calls with the worker is
equivalent to one in which each whole iteration runs between submissions. -/

/-- One interleaved action: the producer submits a request, or the worker
performs one iteration of its loop. -/
inductive Act where
  | submit (w cb data : Nat)
  | work (o : WaitOutcome)

/-- The addresses the producer submits, in submission order. -/
def submittedAddrs (acts : List Act) : List Nat :=
  match acts with
  | [] => []
  | Act.submit w _ _ :: rest => w :: submittedAddrs rest
  | Act.work _ :: rest => submittedAddrs rest

theorem mem_submittedAddrs {w cb d : Nat} :
    ∀ {acts : List Act}, Act.submit w cb d ∈ acts →
      w ∈ submittedAddrs acts := by
  intro acts
  induction acts with
  | nil => intro h; simp at h
  | cons a rest ih =>
      intro hmem
      cases a with
      | submit w' cb' d' =>
          rcases List.mem_cons.mp hmem with hh | hh
          · injection hh with h1 h2 h3
            subst h1
            exact List.mem_cons_self _ _
          · exact List.mem_cons_of_mem _ (ih hh)
      | work o =>
          rcases List.mem_cons.mp hmem with hh | hh
          · exact absurd hh (by simp)
          · exact ih hh

/-- The nodes a chain walk leaves allocated were allocated before it. -/
theorem heapKeys_processChain_subset (ret : Nat → Nat → Int) {heap : Heap}
    {p : Nat} {as : List Nat} (h : Chain heap p as) (hnd : as.Nodup) :
    ∀ b ∈ heapKeys (processChain ret heap p).1, b ∈ heapKeys heap := by
  intro b hb
  obtain ⟨n, hn⟩ := exists_heapGet_of_mem_keys hb
  rw [(processChain_spec ret h hnd).2 b] at hn
  by_cases hbas : b ∈ as
  · simp [hbas] at hn
  · rw [if_neg hbas] at hn
    exact mem_heapKeys_of_heapGet hn

/-- System state transition for one action.  The final `Bool` records
whether the worker's loop is still iterating; once the loop has exited
(`break` or the `while` test failing), further worker actions do nothing,
while producer submissions still take effect. -/
def runAct (ret : Nat → Nat → Int) (st : WQ × Heap × List Event × Bool)
    (a : Act) : WQ × Heap × List Event × Bool :=
  match a with
  | Act.submit w cb data =>
      (fun s => (s.1, s.2, st.2.2.1, st.2.2.2)) (submitReq st.1 st.2.1 w cb data)
  | Act.work o =>
      if st.2.2.2 then
        (fun it => (it.1, it.2.1, st.2.2.1 ++ it.2.2.1, it.2.2.2))
          (wq_main_iter ret st.1 st.2.1 o)
      else st

/-- A whole interleaved run. -/
def runActs (ret : Nat → Nat → Int) (st : WQ × Heap × List Event × Bool)
    (acts : List Act) : WQ × Heap × List Event × Bool :=
  acts.foldl (runAct ret) st

theorem runActs_cons (ret : Nat → Nat → Int)
    (st : WQ × Heap × List Event × Bool) (a : Act) (acts : List Act) :
    runActs ret st (a :: acts) = runActs ret (runAct ret st a) acts := rfl

/-- FIFO invariant of every interleaved run: as long as submitted addresses
are fresh and pairwise distinct, the queue stays well-formed, and the final
invocation order followed by the still-pending chain equals the starting
invocation order, then the starting chain, then the submission order. -/
theorem runActs_fifo_inv (ret : Nat → Nat → Int) :
    ∀ (acts : List Act) (wq : WQ) (heap : Heap) (evs : List Event)
      (alive : Bool) (as : List Nat),
    WQchain wq heap as →
    (∀ w cb d, Act.submit w cb d ∈ acts → w ≠ 0 ∧ w ∉ heapKeys heap) →
    (submittedAddrs acts).Nodup →
    ∃ as',
      WQchain (runActs ret (wq, heap, evs, alive) acts).1
        (runActs ret (wq, heap, evs, alive) acts).2.1 as' ∧
      invokeHandles (runActs ret (wq, heap, evs, alive) acts).2.2.1 ++ as' =
        invokeHandles evs ++ as ++ submittedAddrs acts ∧
      (∀ b ∈ heapKeys (runActs ret (wq, heap, evs, alive) acts).2.1,
        b ∈ submittedAddrs acts ∨ b ∈ heapKeys heap) := by
  intro acts
  induction acts with
  | nil =>
      intro wq heap evs alive as h hfresh hnd
      exact ⟨as, h, by simp [runActs, submittedAddrs], fun b hb => Or.inr hb⟩
  | cons a rest ih =>
      intro wq heap evs alive as h hfresh hnd
      cases a with
      | submit w cb data =>
          obtain ⟨hw0, hwk⟩ := hfresh w cb data (List.mem_cons_self _ _)
          obtain ⟨hch, -, -, -, hkeys, -⟩ := submitReq_spec h hw0 hwk cb data
          rw [runActs_cons]
          have hsub : submittedAddrs (Act.submit w cb data :: rest) =
              w :: submittedAddrs rest := rfl
          rw [hsub] at hnd
          have hndr := (List.nodup_cons.mp hnd).2
          have hwnr := (List.nodup_cons.mp hnd).1
          have hact : runAct ret (wq, heap, evs, alive)
              (Act.submit w cb data) =
              ((submitReq wq heap w cb data).1,
               (submitReq wq heap w cb data).2, evs, alive) := rfl
          rw [hact]
          obtain ⟨as', h1, h2, h3⟩ :=
            ih (submitReq wq heap w cb data).1 (submitReq wq heap w cb data).2
              evs alive (as ++ [w]) hch
              (by
                intro w' cb' d' hmem
                obtain ⟨hw0', hwk'⟩ :=
                  hfresh w' cb' d' (List.mem_cons_of_mem _ hmem)
                refine ⟨hw0', ?_⟩
                rw [hkeys]
                intro hmem'
                rcases List.mem_cons.mp hmem' with hh | hh
                · exact hwnr (hh ▸ mem_submittedAddrs hmem)
                · exact hwk' hh)
              hndr
          refine ⟨as', h1, ?_, ?_⟩
          · rw [h2, hsub]
            simp
          · intro b hb
            rcases h3 b hb with hh | hh
            · exact Or.inl (by rw [hsub]; exact List.mem_cons_of_mem _ hh)
            · rw [hkeys] at hh
              rcases List.mem_cons.mp hh with hh | hh
              · exact Or.inl (by rw [hsub, hh]; exact List.mem_cons_self _ _)
              · exact Or.inr hh
      | work o =>
          have hsub : submittedAddrs (Act.work o :: rest) =
              submittedAddrs rest := rfl
          rw [runActs_cons, hsub]
          rw [hsub] at hnd
          cases alive with
          | false =>
              have hact : runAct ret (wq, heap, evs, false) (Act.work o) =
                  (wq, heap, evs, false) := rfl
              rw [hact]
              exact ih wq heap evs false as h
                (fun w' cb' d' hm => hfresh w' cb' d'
                  (List.mem_cons_of_mem _ hm)) hnd
          | true =>
              cases hrun : wq.running with
              | false =>
                  have hact : runAct ret (wq, heap, evs, true) (Act.work o) =
                      (wq, heap, evs, false) := by
                    simp [runAct, wq_main_iter_stopped ret wq heap o hrun]
                  rw [hact]
                  exact ih wq heap evs false as h
                    (fun w' cb' d' hm => hfresh w' cb' d'
                      (List.mem_cons_of_mem _ hm)) hnd
              | true =>
                  obtain ⟨hwf, htf, -, -⟩ := wq_wait_step_fields wq o
                  cases hnf : (wq_wait_step wq o).2 with
                  | some rc =>
                      have hact : runAct ret (wq, heap, evs, true)
                          (Act.work o) =
                          ((wq_wait_step wq o).1, heap,
                           evs ++ [Event.fatalWait rc], false) := by
                        simp [runAct,
                          wq_main_iter_fatal ret wq heap o rc hrun hnf]
                      rw [hact]
                      have hch1 : WQchain (wq_wait_step wq o).1 heap as := by
                        obtain ⟨hc, hnd1, ht⟩ := h
                        exact ⟨hwf ▸ hc, hnd1, htf ▸ ht⟩
                      obtain ⟨as', h1, h2, h3⟩ :=
                        ih (wq_wait_step wq o).1 heap
                          (evs ++ [Event.fatalWait rc]) false as hch1
                          (fun w' cb' d' hm => hfresh w' cb' d'
                            (List.mem_cons_of_mem _ hm)) hnd
                      refine ⟨as', h1, ?_, h3⟩
                      rw [h2, invokeHandles_append]
                      simp [invokeHandles]
                  | none =>
                      have hact : runAct ret (wq, heap, evs, true)
                          (Act.work o) =
                          ({ (wq_wait_step wq o).1 with work := 0, tail := 0 },
                           (processChain ret heap wq.work).1,
                           evs ++ (processChain ret heap wq.work).2, true) := by
                        simp [runAct,
                          wq_main_iter_drain ret wq heap o hrun hnf]
                      rw [hact]
                      obtain ⟨hc, hnd1, ht⟩ := h
                      obtain ⟨hpe, hph⟩ := processChain_spec ret hc hnd1
                      have hch1 : WQchain
                          { (wq_wait_step wq o).1 with work := 0, tail := 0 }
                          (processChain ret heap wq.work).1 [] :=
                        ⟨Chain.nil, List.nodup_nil, rfl⟩
                      obtain ⟨as', h1, h2, h3⟩ :=
                        ih { (wq_wait_step wq o).1 with work := 0, tail := 0 }
                          (processChain ret heap wq.work).1
                          (evs ++ (processChain ret heap wq.work).2) true []
                          hch1
                          (by
                            intro w' cb' d' hm
                            obtain ⟨hw0', hwk'⟩ := hfresh w' cb' d'
                              (List.mem_cons_of_mem _ hm)
                            exact ⟨hw0', fun hmem => hwk'
                              (heapKeys_processChain_subset ret hc hnd1
                                w' hmem)⟩)
                          hnd
                      refine ⟨as', h1, ?_, ?_⟩
                      · rw [h2, invokeHandles_append, hpe,
                          invokeHandles_chainEvents ret hc]
                        simp
                      · intro b hb
                        rcases h3 b hb with hh | hh
                        · exact Or.inl hh
                        · exact Or.inr
                            (heapKeys_processChain_subset ret hc hnd1 b hh)

/-! ## Further support lemmas -/

/-- The chain walk's event list contains the invocation of each chain node,
with the node's own callback and payload. -/
theorem chainEvents_mem_invoke (ret : Nat → Nat → Int) {heap : Heap}
    {p : Nat} {as : List Nat} (h : Chain heap p as) {a : Nat} {n : Wreq}
    (ha : a ∈ as) (hn : heapGet heap a = some n) :
    Event.invoke a n.work n.work_data (ret n.work n.work_data) ∈
      chainEvents ret heap as := by
  induction as generalizing p with
  | nil => simp at ha
  | cons b rest ih =>
      cases h with
      | cons h1 h2 h3 =>
          rename_i nb
          rcases List.mem_cons.mp ha with hab | hab
          · subst hab
            rw [hn] at h2
            injection h2 with h2
            subst h2
            refine List.mem_append_left _ ?_
            simp [hn, nodeEvents]
          · exact List.mem_append_right _ (ih h3 hab)

/-- `head == NULL ⇔ tail == NULL`, the chain invariant of the spec. -/
def NullInv (wq : WQ) : Prop := wq.work = 0 ↔ wq.tail = 0

/-- The worker loop preserves the null invariant over any trace: the wait
step does not touch `work`/`tail`, and the detach resets both together. -/
theorem eventfs_wq_main_nullInv (ret : Nat → Nat → Int) :
    ∀ (orc : List WaitOutcome) (wq : WQ) (heap : Heap), NullInv wq →
      NullInv (eventfs_wq_main ret wq heap orc).1 := by
  intro orc
  induction orc with
  | nil => intro wq heap h; exact h
  | cons o rest ih =>
      intro wq heap h
      cases hrun : wq.running with
      | false =>
          rw [eventfs_wq_main_stopped ret wq heap _ hrun]
          exact h
      | true =>
          obtain ⟨hwf, htf, -, -⟩ := wq_wait_step_fields wq o
          cases hnf : (wq_wait_step wq o).2 with
          | some rc =>
              rw [eventfs_wq_main_cons,
                wq_main_iter_fatal ret wq heap o rc hrun hnf]
              show NullInv (wq_wait_step wq o).1
              unfold NullInv
              rw [hwf, htf]
              exact h
          | none =>
              rw [eventfs_wq_main_cons,
                wq_main_iter_drain ret wq heap o hrun hnf]
              show NullInv (eventfs_wq_main ret _ _ rest).1
              exact ih _ _ (by simp [NullInv])

/-- The chain walk never emits a FATAL wait report. -/
theorem processChain_no_fatal (ret : Nat → Nat → Int) :
    ∀ (k : Nat) (heap : Heap), List.length heap ≤ k → ∀ (ptr : Nat) (rc : Int),
      Event.fatalWait rc ∉ (processChain ret heap ptr).2 := by
  intro k
  induction k with
  | zero =>
      intro heap hlen ptr rc
      have hnil : heap = [] := List.eq_nil_of_length_eq_zero (Nat.le_zero.mp hlen)
      subst hnil
      by_cases h0 : ptr = 0
      · subst h0; rw [processChain_zero]; simp
      · rw [processChain_none ret [] h0 rfl]; simp
  | succ k ih =>
      intro heap hlen ptr rc
      by_cases h0 : ptr = 0
      · subst h0; rw [processChain_zero]; simp
      · cases hm : heapGet heap ptr with
        | none => rw [processChain_none ret heap h0 hm]; simp
        | some n =>
            rw [processChain_some ret heap h0 hm]
            intro hmem
            rcases List.mem_append.mp hmem with hmem | hmem
            · revert hmem
              by_cases hst : ret n.work n.work_data ≠ 0 <;>
                simp [nodeEvents, hst]
            · have hlt : List.length (heapErase heap ptr) ≤ k :=
                Nat.lt_succ_iff.mp
                  (Nat.lt_of_lt_of_le (heapErase_length_lt hm) hlen)
              exact ih (heapErase heap ptr) hlt n.next rc hmem

/-- Splitting an occurrence off an append when it cannot lie in the left
part. -/
theorem append_eq_append_cons_right {α : Type} {l1 l2 pre suf : List α}
    {x : α} (h : l1 ++ l2 = pre ++ x :: suf) (hx : x ∉ l1) :
    ∃ pre2, l2 = pre2 ++ x :: suf := by
  induction l1 generalizing pre with
  | nil => exact ⟨pre, h⟩
  | cons y t ih =>
      cases pre with
      | nil =>
          simp only [List.cons_append, List.nil_append] at h
          injection h with hxy hrest
          subst hxy
          exact absurd (List.mem_cons_self _ _) hx
      | cons z pre' =>
          simp only [List.cons_append] at h
          injection h with hyz hrest
          exact ih hrest (fun hm => hx (List.mem_cons_of_mem _ hm))

/-- Once the worker reports a FATAL wait error, nothing follows it: the
FATAL report is always the final event of a worker run. -/
theorem eventfs_wq_main_fatal_last (ret : Nat → Nat → Int) :
    ∀ (orc : List WaitOutcome) (wq : WQ) (heap : Heap)
      (pre : List Event) (rc : Int) (suf : List Event),
    (eventfs_wq_main ret wq heap orc).2.2 = pre ++ Event.fatalWait rc :: suf →
    suf = [] := by
  intro orc
  induction orc with
  | nil =>
      intro wq heap pre rc suf h
      rw [show eventfs_wq_main ret wq heap [] = (wq, heap, []) from rfl] at h
      exact absurd h.symm (by simp)
  | cons o rest ih =>
      intro wq heap pre rc suf h
      cases hrun : wq.running with
      | false =>
          rw [eventfs_wq_main_stopped ret wq heap _ hrun] at h
          exact absurd h.symm (by simp)
      | true =>
          cases hnf : (wq_wait_step wq o).2 with
          | some rc' =>
              rw [eventfs_wq_main_cons,
                wq_main_iter_fatal ret wq heap o rc' hrun hnf] at h
              have hlen := congrArg List.length h
              simp [List.length_append] at hlen
              have hs : suf.length = 0 := by omega
              exact List.eq_nil_of_length_eq_zero hs
          | none =>
              rw [eventfs_wq_main_cons,
                wq_main_iter_drain ret wq heap o hrun hnf] at h
              simp only [if_true] at h
              have hsplit := append_eq_append_cons_right h
                (processChain_no_fatal ret (List.length heap) heap
                  (Nat.le_refl _) wq.work rc)
              obtain ⟨pre2, hpre2⟩ := hsplit
              exact ih _ _ pre2 rc suf hpre2

/-- A `WQ` whose `running` field is already false is unchanged by writing
`running := false`. -/
theorem WQ_set_running_false {wq : WQ} (h : wq.running = false) :
    { wq with running := false } = wq := by
  obtain ⟨w, t, s, r, th⟩ := wq
  simp only at h
  rw [h]

/-- One-step unfolding of the worker loop when the wait step does not fail
fatally: the chain is detached and walked, and the loop continues. -/
theorem eventfs_wq_main_drain_cons (ret : Nat → Nat → Int) (wq : WQ)
    (heap : Heap) (o : WaitOutcome) (orc : List WaitOutcome)
    (hrun : wq.running = true) (hnf : (wq_wait_step wq o).2 = none) :
    eventfs_wq_main ret wq heap (o :: orc) =
      ((eventfs_wq_main ret
          { (wq_wait_step wq o).1 with work := 0, tail := 0 }
          (processChain ret heap wq.work).1 orc).1,
       (eventfs_wq_main ret
          { (wq_wait_step wq o).1 with work := 0, tail := 0 }
          (processChain ret heap wq.work).1 orc).2.1,
       (processChain ret heap wq.work).2 ++
         (eventfs_wq_main ret
           { (wq_wait_step wq o).1 with work := 0, tail := 0 }
           (processChain ret heap wq.work).1 orc).2.2) := by
  rw [eventfs_wq_main_cons, wq_main_iter_drain ret wq heap o hrun hnf]
  rfl

/-- One-step unfolding of the worker loop when the wait step fails fatally:
the FATAL report is emitted and the loop terminates, leaving the queue and
the heap untouched. -/
theorem eventfs_wq_main_fatal_cons (ret : Nat → Nat → Int) (wq : WQ)
    (heap : Heap) (o : WaitOutcome) (orc : List WaitOutcome) (rc : Int)
    (hrun : wq.running = true) (hf : (wq_wait_step wq o).2 = some rc) :
    eventfs_wq_main ret wq heap (o :: orc) =
      ((wq_wait_step wq o).1, heap, [Event.fatalWait rc]) := by
  rw [eventfs_wq_main_cons, wq_main_iter_fatal ret wq heap o rc hrun hf]
  rfl

/-- The chain walk frees the same nodes and invokes the same addresses no
matter what statuses the callbacks return. -/
theorem processChain_ret_irrel (ret ret' : Nat → Nat → Int) :
    ∀ (k : Nat) (heap : Heap), List.length heap ≤ k → ∀ (ptr : Nat),
      (processChain ret heap ptr).1 = (processChain ret' heap ptr).1 ∧
      invokeHandles (processChain ret heap ptr).2 =
        invokeHandles (processChain ret' heap ptr).2 := by
  intro k
  induction k with
  | zero =>
      intro heap hlen ptr
      have hnil : heap = [] := List.eq_nil_of_length_eq_zero (Nat.le_zero.mp hlen)
      subst hnil
      by_cases h0 : ptr = 0
      · subst h0; rw [processChain_zero, processChain_zero]; exact ⟨rfl, rfl⟩
      · rw [processChain_none ret [] h0 rfl, processChain_none ret' [] h0 rfl]
        exact ⟨rfl, rfl⟩
  | succ k ih =>
      intro heap hlen ptr
      by_cases h0 : ptr = 0
      · subst h0; rw [processChain_zero, processChain_zero]; exact ⟨rfl, rfl⟩
      · cases hm : heapGet heap ptr with
        | none =>
            rw [processChain_none ret heap h0 hm,
              processChain_none ret' heap h0 hm]
            exact ⟨rfl, rfl⟩
        | some n =>
            rw [processChain_some ret heap h0 hm,
              processChain_some ret' heap h0 hm]
            have hlt : List.length (heapErase heap ptr) ≤ k :=
              Nat.lt_succ_iff.mp
                (Nat.lt_of_lt_of_le (heapErase_length_lt hm) hlen)
            obtain ⟨ih1, ih2⟩ := ih (heapErase heap ptr) hlt n.next
            refine ⟨ih1, ?_⟩
            rw [invokeHandles_append, invokeHandles_append,
              invokeHandles_nodeEvents, invokeHandles_nodeEvents, ih2]

/-- The worker loop reaches the same final state and invokes the same nodes
in the same order no matter what statuses the callbacks return: a nonzero
callback status never terminates the batch, the loop or the queue. -/
theorem eventfs_wq_main_ret_irrel (ret ret' : Nat → Nat → Int) :
    ∀ (orc : List WaitOutcome) (wq : WQ) (heap : Heap),
      (eventfs_wq_main ret wq heap orc).1 =
        (eventfs_wq_main ret' wq heap orc).1 ∧
      (eventfs_wq_main ret wq heap orc).2.1 =
        (eventfs_wq_main ret' wq heap orc).2.1 ∧
      invokeHandles (eventfs_wq_main ret wq heap orc).2.2 =
        invokeHandles (eventfs_wq_main ret' wq heap orc).2.2 := by
  intro orc
  induction orc with
  | nil => intro wq heap; exact ⟨rfl, rfl, rfl⟩
  | cons o rest ih =>
      intro wq heap
      cases hrun : wq.running with
      | false =>
          rw [eventfs_wq_main_stopped ret wq heap _ hrun,
            eventfs_wq_main_stopped ret' wq heap _ hrun]
          exact ⟨rfl, rfl, rfl⟩
      | true =>
          cases hnf : (wq_wait_step wq o).2 with
          | some rc =>
              rw [eventfs_wq_main_fatal_cons ret wq heap o rest rc hrun hnf,
                eventfs_wq_main_fatal_cons ret' wq heap o rest rc hrun hnf]
              exact ⟨rfl, rfl, rfl⟩
          | none =>
              rw [eventfs_wq_main_drain_cons ret wq heap o rest hrun hnf,
                eventfs_wq_main_drain_cons ret' wq heap o rest hrun hnf]
              obtain ⟨hp1, hp2⟩ := processChain_ret_irrel ret ret'
                (List.length heap) heap (Nat.le_refl _) wq.work
              rw [hp1]
              obtain ⟨ih1, ih2, ih3⟩ := ih
                { (wq_wait_step wq o).1 with work := 0, tail := 0 }
                (processChain ret' heap wq.work).1
              refine ⟨ih1, ih2, ?_⟩
              rw [invokeHandles_append, invokeHandles_append, hp2, ih3]

/-- The chain walk's event list reports every failing callback. -/
theorem chainEvents_mem_workErr (ret : Nat → Nat → Int) {heap : Heap}
    {p : Nat} {as : List Nat} (h : Chain heap p as) {a : Nat} {n : Wreq}
    (ha : a ∈ as) (hn : heapGet heap a = some n)
    (hst : ret n.work n.work_data ≠ 0) :
    Event.workErr n.work (ret n.work n.work_data) ∈
      chainEvents ret heap as := by
  induction as generalizing p with
  | nil => simp at ha
  | cons b rest ih =>
      cases h with
      | cons h1 h2 h3 =>
          rename_i nb
          rcases List.mem_cons.mp ha with hab | hab
          · subst hab
            rw [hn] at h2
            injection h2 with h2
            subst h2
            refine List.mem_append_left _ ?_
            simp [hn, nodeEvents, hst]
          · exact List.mem_append_right _ (ih h3 hab)

/-! ## Concrete fixtures used by witnesses and counterexamples -/

/-- A callback environment in which every callback succeeds. -/
def retZero : Nat → Nat → Int := fun _ _ => 0

/-- An initialized queue that was never started (or already stopped). -/
def wqIdle : WQ := { work := 0, tail := 0, work_sem := 0, running := false, thread := 0 }

/-- A started queue with an empty chain. -/
def wqLive : WQ := { work := 0, tail := 0, work_sem := 0, running := true, thread := 5 }

/-- A started queue holding one pending request at address 1. -/
def wqOne : WQ := { work := 1, tail := 1, work_sem := 1, running := true, thread := 7 }

/-- One node: callback 5, payload 9, end of chain. -/
def heapOne : Heap := [(1, { work := 5, work_data := 9, next := 0 })]

/-- Two chained nodes: 1 → 2. -/
def heapAB : Heap :=
  [(1, { work := 10, work_data := 100, next := 2 }),
   (2, { work := 11, work_data := 101, next := 0 })]

/-- A stopped queue holding the two-node chain of `heapAB`. -/
def wqAB : WQ := { work := 1, tail := 2, work_sem := 2, running := false, thread := 0 }

theorem chain_heapAB : Chain heapAB 1 [1, 2] := by
  refine Chain.cons (n := { work := 10, work_data := 100, next := 2 })
    (by decide) rfl ?_
  refine Chain.cons (n := { work := 11, work_data := 101, next := 0 })
    (by decide) rfl ?_
  exact Chain.nil

/-! ## The claims -/

/-- C3: Postcondition of `eventfs_wq_add` (wq.c:236-261): for every queue
state, if the pending chain is empty the enqueued request becomes both head
and tail; otherwise it is linked after the current tail
(`wq->tail->next = wreq`) and becomes the new tail; the signal count is
incremented by exactly one after the locked section; and the operation
always returns success (0) — it has no failure path.  The `running` and
`thread` fields are untouched. -/
theorem C3_enqueue_postcondition (wq : WQ) (heap : Heap) (w : Nat) :
    (eventfs_wq_add wq heap w).2.2 = 0 ∧
    (eventfs_wq_add wq heap w).1.work_sem = wq.work_sem + 1 ∧
    (eventfs_wq_add wq heap w).1.running = wq.running ∧
    (eventfs_wq_add wq heap w).1.thread = wq.thread ∧
    (wq.work = 0 →
      (eventfs_wq_add wq heap w).1.work = w ∧
      (eventfs_wq_add wq heap w).1.tail = w ∧
      (eventfs_wq_add wq heap w).2.1 = heap) ∧
    (wq.work ≠ 0 →
      (eventfs_wq_add wq heap w).1.work = wq.work ∧
      (eventfs_wq_add wq heap w).1.tail = w ∧
      (eventfs_wq_add wq heap w).2.1 = heapSetNext heap wq.tail w ∧
      heapGet (eventfs_wq_add wq heap w).2.1 wq.tail =
        (heapGet heap wq.tail).map (fun n => { n with next := w })) := by
  by_cases hz : wq.work = 0 <;>
    simp [eventfs_wq_add, hz, heapGet_heapSetNext]

/-- Witness for C3 at a concrete input: enqueue address 1 onto the empty
idle queue. -/
theorem C3_enqueue_postcondition_witness :
    (eventfs_wq_add wqIdle [] 1).2.2 = 0 ∧
    (eventfs_wq_add wqIdle [] 1).1.work = 1 ∧
    (eventfs_wq_add wqIdle [] 1).1.tail = 1 := by
  obtain ⟨h1, -, -, -, h5, -⟩ := C3_enqueue_postcondition wqIdle [] 1
  obtain ⟨h2, h3, -⟩ := h5 rfl
  exact ⟨h1, h2, h3⟩

/-- C6 counterexample: the claim says `start` when running, `stop` when not
running and `destroy` when running return *distinct* misuse error codes.
In the source all three return the same code `-EINVAL` (= -22): here the
three misuse returns are computed at concrete inputs and are all equal, so
they are not pairwise distinct. -/
theorem C6_counterexample :
    (eventfs_wq_start wqOne none 1).2 = (eventfs_wq_stop wqIdle).2 ∧
    (eventfs_wq_stop wqIdle).2 = (eventfs_wq_free wqOne heapOne).2.2.2 ∧
    (eventfs_wq_start wqOne none 1).2 = -22 := by
  refine ⟨?_, ?_, ?_⟩ <;>
    simp [eventfs_wq_start, eventfs_wq_stop, eventfs_wq_free, wqOne, wqIdle,
      EINVAL]

/-- C6 (amended): lifecycle misuse is rejected atomically: `start` when
`running` is true, `stop` when `running` is false and `destroy` (`free`)
when `running` is true each return the *same* misuse error code `-EINVAL`,
and in each case the queue structure (every field: running flag, head, tail,
signal count, thread handle) and the heap are left unchanged. -/
theorem C6_misuse_rejected_unchanged (wq : WQ) (heap : Heap)
    (spawn : Option Nat) (t : Nat) :
    (wq.running = true → eventfs_wq_start wq spawn t = (wq, -EINVAL)) ∧
    (wq.running = false → eventfs_wq_stop wq = (wq, -EINVAL)) ∧
    (wq.running = true →
      eventfs_wq_free wq heap = (wq, heap, [], -EINVAL)) := by
  refine ⟨fun h => ?_, fun h => ?_, fun h => ?_⟩ <;>
    simp [eventfs_wq_start, eventfs_wq_stop, eventfs_wq_free, h]

/-- Witness for C6 (amended) at concrete inputs. -/
theorem C6_misuse_rejected_unchanged_witness :
    eventfs_wq_start wqOne none 1 = (wqOne, -EINVAL) ∧
    eventfs_wq_stop wqIdle = (wqIdle, -EINVAL) ∧
    eventfs_wq_free wqOne heapOne = (wqOne, heapOne, [], -EINVAL) :=
  ⟨(C6_misuse_rejected_unchanged wqOne heapOne none 1).1 rfl,
   (C6_misuse_rejected_unchanged wqIdle [] none 1).2.1 rfl,
   (C6_misuse_rejected_unchanged wqOne heapOne none 1).2.2 rfl⟩

/-- C7: if `pthread_create` fails in `eventfs_wq_start` (environment
`spawn = some e`, `errno = e`), the `running` flag is rolled back to false —
in fact the whole structure is exactly as before the call — and the negated
spawn errno is returned; a subsequent retry of `start` on the same queue
does not trip the already-running check and succeeds when the spawn
succeeds. -/
theorem C7_spawn_failure_rollback (wq : WQ) (e : Nat) (t t' : Nat)
    (h : wq.running = false) :
    eventfs_wq_start wq (some e) t = (wq, -(e : Int)) ∧
    (eventfs_wq_start (eventfs_wq_start wq (some e) t).1 none t').2 = 0 ∧
    (eventfs_wq_start (eventfs_wq_start wq (some e) t).1 none t').1.running =
      true := by
  have h1 : eventfs_wq_start wq (some e) t = ({ wq with running := false },
      -(e : Int)) := by
    simp [eventfs_wq_start, h]
  rw [WQ_set_running_false h] at h1
  refine ⟨h1, ?_, ?_⟩ <;> rw [h1] <;> simp [eventfs_wq_start, h]

/-- Witness for C7 at a concrete input: a failed spawn (`errno = 11`) on
the idle queue, followed by a successful retry. -/
theorem C7_spawn_failure_rollback_witness :
    eventfs_wq_start wqIdle (some 11) 1 = (wqIdle, -11) ∧
    (eventfs_wq_start (eventfs_wq_start wqIdle (some 11) 1).1 none 2).2 = 0 :=
  ⟨(C7_spawn_failure_rollback wqIdle 11 1 2 rfl).1,
   (C7_spawn_failure_rollback wqIdle 11 1 2 rfl).2.1⟩

/-- C4: the invariant `head == NULL ⇔ tail == NULL` (wq.c fields `work` and
`tail`) is established by `eventfs_wq_init` and preserved by every
operation: enqueue of a nonzero (i.e. successfully malloc'ed) request sets
both on an empty chain and leaves both non-NULL otherwise; the worker's
detach step sets both to `NULL` together, and the whole worker loop
preserves the invariant; and `eventfs_wq_free` either leaves the queue
unchanged (misuse) or zeroes the whole structure. -/
theorem C4_null_invariant (ret : Nat → Nat → Int) :
    (∀ mrc : Int, NullInv (eventfs_wq_init mrc).1) ∧
    (∀ (wq : WQ) (heap : Heap) (w : Nat), w ≠ 0 → NullInv wq →
      NullInv (eventfs_wq_add wq heap w).1) ∧
    (∀ (wq : WQ) (heap : Heap) (o : WaitOutcome), wq.running = true →
      (wq_wait_step wq o).2 = none →
      (wq_main_iter ret wq heap o).1.work = 0 ∧
      (wq_main_iter ret wq heap o).1.tail = 0) ∧
    (∀ (orc : List WaitOutcome) (wq : WQ) (heap : Heap), NullInv wq →
      NullInv (eventfs_wq_main ret wq heap orc).1) ∧
    (∀ (wq : WQ) (heap : Heap), NullInv wq →
      NullInv (eventfs_wq_free wq heap).1) := by
  refine ⟨?_, ?_, ?_, ?_, ?_⟩
  · intro mrc
    by_cases h : mrc ≠ 0 <;> simp [eventfs_wq_init, h, zeroWQ, NullInv]
  · intro wq heap w hw h
    by_cases hz : wq.work = 0
    · simp [eventfs_wq_add, hz, NullInv]
    · simp only [eventfs_wq_add, hz, if_neg hz, if_false, NullInv]
      constructor
      · intro hh
        exact absurd hh hz
      · intro hh
        exact absurd hh hw
  · intro wq heap o hrun hnf
    rw [wq_main_iter_drain ret wq heap o hrun hnf]
    exact ⟨rfl, rfl⟩
  · exact fun orc wq heap h => eventfs_wq_main_nullInv ret orc wq heap h
  · intro wq heap h
    cases hr : wq.running with
    | true =>
        have : eventfs_wq_free wq heap = (wq, heap, [], -EINVAL) := by
          simp [eventfs_wq_free, hr]
        rw [this]
        exact h
    | false =>
        have : (eventfs_wq_free wq heap).1 = zeroWQ := by
          simp [eventfs_wq_free, hr]
        rw [this]
        simp [zeroWQ, NullInv]

/-- Witness for C4 at concrete inputs: enqueue onto the idle (empty) queue
and one drain iteration of the loaded queue. -/
theorem C4_null_invariant_witness :
    NullInv (eventfs_wq_add wqIdle [] 1).1 ∧
    NullInv (eventfs_wq_main retZero wqOne heapOne [WaitOutcome.tryOk]).1 :=
  ⟨(C4_null_invariant retZero).2.1 wqIdle [] 1 (by decide)
     (by simp [NullInv, wqIdle]),
   (C4_null_invariant retZero).2.2.2.1 [WaitOutcome.tryOk] wqOne heapOne
     (by simp [NullInv, wqOne])⟩

/-- C8: Postcondition of `eventfs_wq_free` on a non-running queue: the call
returns 0, the whole structure is zeroed (mutex and semaphore destroyed,
`memset` to zero), no callback is ever invoked (the teardown walk produces
no events), and every one of the N pending requests is released (every
chain address becomes unallocated) while all other allocations are
untouched. -/
theorem C8_destroy_discards_pending (wq : WQ) (heap : Heap) (as : List Nat)
    (hrun : wq.running = false) (h : Chain heap wq.work as)
    (hnd : as.Nodup) :
    (eventfs_wq_free wq heap).2.2.2 = 0 ∧
    (eventfs_wq_free wq heap).1 = zeroWQ ∧
    (eventfs_wq_free wq heap).2.2.1 = [] ∧
    (∀ b ∈ as, heapGet (eventfs_wq_free wq heap).2.1 b = none) ∧
    (∀ b, b ∉ as →
      heapGet (eventfs_wq_free wq heap).2.1 b = heapGet heap b) := by
  obtain ⟨he, hr0, hh⟩ := eventfs_wq_queue_free_spec h hnd
  have hfree : eventfs_wq_free wq heap =
      (zeroWQ, (eventfs_wq_queue_free heap wq.work).1,
       (eventfs_wq_queue_free heap wq.work).2.1, 0) := by
    simp [eventfs_wq_free, hrun]
  rw [hfree]
  refine ⟨rfl, rfl, he, ?_, ?_⟩
  · intro b hb
    rw [hh b, if_pos hb]
  · intro b hb
    rw [hh b, if_neg hb]

/-- Witness for C8 at a concrete input: destroying the stopped queue holding
the two-node chain 1 → 2 frees both nodes, zeroes the structure and runs no
callback. -/
theorem C8_destroy_discards_pending_witness :
    (eventfs_wq_free wqAB heapAB).1 = zeroWQ ∧
    (eventfs_wq_free wqAB heapAB).2.2.1 = [] ∧
    heapGet (eventfs_wq_free wqAB heapAB).2.1 1 = none :=
  ⟨(C8_destroy_discards_pending wqAB heapAB [1, 2] rfl chain_heapAB
      (by decide)).2.1,
   (C8_destroy_discards_pending wqAB heapAB [1, 2] rfl chain_heapAB
      (by decide)).2.2.1,
   (C8_destroy_discards_pending wqAB heapAB [1, 2] rfl chain_heapAB
      (by decide)).2.2.2.1 1 (by decide)⟩

/-- C10 (implicit): `eventfs_wq_add` never inspects the `running` flag.  On
any initialized, well-formed but non-running queue, a submission still
appends the request to the pending chain, increments the semaphore and
returns 0; the worker (whose loop exits immediately because `running` is
false) never produces any event, so the callback never executes; and the
node is released, uninvoked, only when `eventfs_wq_free` discards the
leftover chain. -/
theorem C10_enqueue_ignores_running (ret : Nat → Nat → Int) (wq : WQ)
    (heap : Heap) (as : List Nat) (w cb data : Nat)
    (h : WQchain wq heap as) (hrun : wq.running = false)
    (hw0 : w ≠ 0) (hfresh : w ∉ heapKeys heap) :
    (eventfs_wq_add wq ((w, (eventfs_wreq_init cb data).1) :: heap) w).2.2 =
      0 ∧
    WQchain (submitReq wq heap w cb data).1 (submitReq wq heap w cb data).2
      (as ++ [w]) ∧
    (submitReq wq heap w cb data).1.work_sem = wq.work_sem + 1 ∧
    (submitReq wq heap w cb data).1.running = false ∧
    (∀ orc, eventfs_wq_main ret (submitReq wq heap w cb data).1
        (submitReq wq heap w cb data).2 orc =
      ((submitReq wq heap w cb data).1, (submitReq wq heap w cb data).2,
       [])) ∧
    (eventfs_wq_free (submitReq wq heap w cb data).1
        (submitReq wq heap w cb data).2).2.2.1 = [] ∧
    (eventfs_wq_free (submitReq wq heap w cb data).1
        (submitReq wq heap w cb data).2).2.2.2 = 0 ∧
    heapGet (eventfs_wq_free (submitReq wq heap w cb data).1
        (submitReq wq heap w cb data).2).2.1 w = none := by
  obtain ⟨hch, hsem, hruns, -, hkeys, hget⟩ := submitReq_spec h hw0 hfresh cb data
  have hr' : (submitReq wq heap w cb data).1.running = false := by
    rw [hruns, hrun]
  have hrc : (eventfs_wq_add wq ((w, (eventfs_wreq_init cb data).1) :: heap)
      w).2.2 = 0 := by
    by_cases hz : wq.work = 0 <;> simp [eventfs_wq_add, hz]
  obtain ⟨hqe, hq0, hqh⟩ := eventfs_wq_queue_free_spec hch.1 hch.2.1
  have hfree : eventfs_wq_free (submitReq wq heap w cb data).1
      (submitReq wq heap w cb data).2 =
      (zeroWQ,
       (eventfs_wq_queue_free (submitReq wq heap w cb data).2
         (submitReq wq heap w cb data).1.work).1,
       (eventfs_wq_queue_free (submitReq wq heap w cb data).2
         (submitReq wq heap w cb data).1.work).2.1, 0) := by
    simp [eventfs_wq_free, hr']
  refine ⟨hrc, hch, hsem, hr',
    fun orc => eventfs_wq_main_stopped ret _ _ orc hr', ?_, ?_, ?_⟩
  · rw [hfree]
    exact hqe
  · rw [hfree]
  · rw [hfree]
    show heapGet (eventfs_wq_queue_free (submitReq wq heap w cb data).2
      (submitReq wq heap w cb data).1.work).1 w = none
    rw [hqh w, if_pos (by simp)]

/-- Witness for C10 at a concrete input: submitting address 3 (callback 4,
payload 5) to the idle queue, then destroying it, releases node 3 without
ever invoking it. -/
theorem C10_enqueue_ignores_running_witness :
    (submitReq wqIdle [] 3 4 5).1.running = false ∧
    (eventfs_wq_free (submitReq wqIdle [] 3 4 5).1
        (submitReq wqIdle [] 3 4 5).2).2.2.1 = [] ∧
    heapGet (eventfs_wq_free (submitReq wqIdle [] 3 4 5).1
        (submitReq wqIdle [] 3 4 5).2).2.1 3 = none :=
  ⟨(C10_enqueue_ignores_running retZero wqIdle [] [] 3 4 5
      ⟨Chain.nil, List.nodup_nil, rfl⟩ rfl (by decide) (by decide)).2.2.2.1,
   (C10_enqueue_ignores_running retZero wqIdle [] [] 3 4 5
      ⟨Chain.nil, List.nodup_nil, rfl⟩ rfl (by decide) (by decide)).2.2.2.2.2.1,
   (C10_enqueue_ignores_running retZero wqIdle [] [] 3 4 5
      ⟨Chain.nil, List.nodup_nil, rfl⟩ rfl (by decide)
      (by decide)).2.2.2.2.2.2.2⟩

/-- C9 counterexample: the claim says a failing wait that is not the
transient retry condition makes the worker log the error and stop draining,
"covering both the try-wait and the blocking-wait paths".  The source checks
only `sem_trywait`; the return value of the blocking `sem_wait` (wq.c:44) is
ignored.  Concretely: `sem_trywait` fails with `EAGAIN`, the blocking
`sem_wait` then fails with `EINVAL` (not a transient retry condition), yet
the worker emits no FATAL report, does not terminate, and proceeds to drain
and execute the pending request — the run's whole event list is that one
invocation. -/
theorem C9_counterexample :
    (eventfs_wq_main retZero wqOne heapOne
      [WaitOutcome.tryFail 11 (some 22)]).2.2 = [Event.invoke 1 5 9 0] := by
  have hnf : (wq_wait_step wqOne (WaitOutcome.tryFail 11 (some 22))).2 =
      none := by decide
  rw [eventfs_wq_main_drain_cons retZero wqOne heapOne
    (WaitOutcome.tryFail 11 (some 22)) [] rfl hnf]
  have hpc : processChain retZero heapOne 1 =
      (heapErase heapOne 1, [Event.invoke 1 5 9 0]) := by
    rw [processChain_some retZero heapOne (by decide)
      (show heapGet heapOne 1 =
        some { work := 5, work_data := 9, next := 0 } from rfl)]
    rw [show ({ work := 5, work_data := 9, next := 0 } : Wreq).next = 0
      from rfl, processChain_zero]
    simp [nodeEvents, retZero]
  show (processChain retZero heapOne wqOne.work).2 ++
      (eventfs_wq_main retZero _ _ []).2.2 = [Event.invoke 1 5 9 0]
  rw [show wqOne.work = 1 from rfl, hpc]
  rfl

/-- C9 (amended): when `sem_trywait` fails with an `errno` other than
`EAGAIN`, the worker logs the FATAL report and terminates its loop at once:
the queue and heap are left exactly as they were and no work is ever drained
afterwards.  Moreover, over every trace, a FATAL report is always the last
event of the worker's run.  (Errors returned by the blocking `sem_wait` are
ignored by the source and do not terminate the loop — see the
counterexample.) -/
theorem C9_fatal_trywait_terminates (ret : Nat → Nat → Int) :
    (∀ (wq : WQ) (heap : Heap) (e : Nat) (wres : Option Nat)
        (rest : List WaitOutcome), wq.running = true →
      -(e : Int) ≠ -EAGAIN →
      eventfs_wq_main ret wq heap (WaitOutcome.tryFail e wres :: rest) =
        (wq, heap, [Event.fatalWait (-(e : Int))])) ∧
    (∀ (wq : WQ) (heap : Heap) (orc : List WaitOutcome) (pre : List Event)
        (rc : Int) (suf : List Event),
      (eventfs_wq_main ret wq heap orc).2.2 =
        pre ++ Event.fatalWait rc :: suf → suf = []) := by
  constructor
  · intro wq heap e wres rest hrun he
    have hstep : wq_wait_step wq (WaitOutcome.tryFail e wres) =
        (wq, some (-(e : Int))) := by
      simp [wq_wait_step, he]
    have h2 : (wq_wait_step wq (WaitOutcome.tryFail e wres)).2 =
        some (-(e : Int)) := by rw [hstep]
    rw [eventfs_wq_main_fatal_cons ret wq heap _ rest _ hrun h2, hstep]
  · exact fun wq heap orc => eventfs_wq_main_fatal_last ret orc wq heap

/-- Witness for C9 (amended) at a concrete input: `sem_trywait` failing with
`EINVAL` terminates the loaded worker at once, leaving the pending chain in
place and draining nothing. -/
theorem C9_fatal_trywait_terminates_witness :
    eventfs_wq_main retZero wqOne heapOne [WaitOutcome.tryFail 22 none] =
      (wqOne, heapOne, [Event.fatalWait (-22)]) :=
  (C9_fatal_trywait_terminates retZero).1 wqOne heapOne 22 none [] rfl
    (by decide)

/-- A callback environment in which every callback fails with status 5. -/
def retFive : Nat → Nat → Int := fun _ _ => 5

/-- C5: on a well-formed detached batch, whatever statuses the callbacks
return: every node of the batch is invoked in order (a nonzero status never
stops the walk), each failing callback is reported (`workErr` with the
callback identity and its status), every node is destroyed (its address is
unallocated afterwards), and the worker loop itself reaches the same state
and invokes the same nodes as it would if every callback succeeded — a
single work item's failure never terminates the batch, the worker loop, or
the queue. -/
theorem C5_callback_failure_nonfatal (ret : Nat → Nat → Int) {heap : Heap}
    {p : Nat} {as : List Nat} (h : Chain heap p as) (hnd : as.Nodup) :
    invokeHandles (processChain ret heap p).2 = as ∧
    (∀ a ∈ as, ∀ n : Wreq, heapGet heap a = some n →
      ret n.work n.work_data ≠ 0 →
      Event.workErr n.work (ret n.work n.work_data) ∈
        (processChain ret heap p).2) ∧
    (∀ a ∈ as, heapGet (processChain ret heap p).1 a = none) ∧
    (∀ (ret' : Nat → Nat → Int) (wq : WQ) (heap2 : Heap)
        (orc : List WaitOutcome),
      (eventfs_wq_main ret wq heap2 orc).1 =
        (eventfs_wq_main ret' wq heap2 orc).1 ∧
      (eventfs_wq_main ret wq heap2 orc).2.1 =
        (eventfs_wq_main ret' wq heap2 orc).2.1 ∧
      invokeHandles (eventfs_wq_main ret wq heap2 orc).2.2 =
        invokeHandles (eventfs_wq_main ret' wq heap2 orc).2.2) := by
  obtain ⟨hpe, hph⟩ := processChain_spec ret h hnd
  refine ⟨?_, ?_, ?_, ?_⟩
  · rw [hpe]
    exact invokeHandles_chainEvents ret h
  · intro a ha n hn hst
    rw [hpe]
    exact chainEvents_mem_workErr ret h ha hn hst
  · intro a ha
    rw [hph a, if_pos ha]
  · intro ret' wq heap2 orc
    exact eventfs_wq_main_ret_irrel ret ret' orc wq heap2

/-- Witness for C5 at a concrete input: on the two-node batch 1 → 2 whose
callbacks both fail with status 5, both nodes are still invoked in order and
the first failure is reported. -/
theorem C5_callback_failure_nonfatal_witness :
    invokeHandles (processChain retFive heapAB 1).2 = [1, 2] ∧
    Event.workErr 10 5 ∈ (processChain retFive heapAB 1).2 :=
  ⟨(C5_callback_failure_nonfatal retFive chain_heapAB (by decide)).1,
   (C5_callback_failure_nonfatal retFive chain_heapAB (by decide)).2.1 1
     (by decide) { work := 10, work_data := 100, next := 2 } rfl (by decide)⟩

/-- C2: round-trip.  Constructing a WorkRequest with
`eventfs_wreq_init(wreq, cb, data)` at a fresh address, enqueuing it with
`eventfs_wq_add`, and letting the worker drain the queue (one wakeup
followed by any continuation of the loop) yields exactly one invocation
carrying that request handle, that callback and exactly that payload;
afterwards the node is destroyed (its address is unallocated), so it can
never be invoked again. -/
theorem C2_round_trip (ret : Nat → Nat → Int) (wq : WQ) (heap : Heap)
    (as : List Nat) (w cb data : Nat) (orc : List WaitOutcome)
    (h : WQchain wq heap as) (hrun : wq.running = true)
    (hw0 : w ≠ 0) (hfresh : w ∉ heapKeys heap) :
    List.count w (invokeHandles
      (eventfs_wq_main ret (submitReq wq heap w cb data).1
        (submitReq wq heap w cb data).2
        (WaitOutcome.tryOk :: orc)).2.2) = 1 ∧
    Event.invoke w cb data (ret cb data) ∈
      (eventfs_wq_main ret (submitReq wq heap w cb data).1
        (submitReq wq heap w cb data).2 (WaitOutcome.tryOk :: orc)).2.2 ∧
    heapGet (eventfs_wq_main ret (submitReq wq heap w cb data).1
        (submitReq wq heap w cb data).2 (WaitOutcome.tryOk :: orc)).2.1 w =
      none := by
  obtain ⟨hch, hsem, hruns, hth, hkeys, hget⟩ :=
    submitReq_spec h hw0 hfresh cb data
  have hwas : w ∉ as := fun hmem => hfresh (h.1.subset_keys w hmem)
  have hrun1 : (submitReq wq heap w cb data).1.running = true := by
    rw [hruns, hrun]
  have hnf : (wq_wait_step (submitReq wq heap w cb data).1
      WaitOutcome.tryOk).2 = none := rfl
  rw [eventfs_wq_main_drain_cons ret (submitReq wq heap w cb data).1
    (submitReq wq heap w cb data).2 WaitOutcome.tryOk orc hrun1 hnf]
  obtain ⟨hpe, hph⟩ := processChain_spec ret hch.1 hch.2.1
  obtain ⟨hmh, hmi, hmw⟩ := eventfs_wq_main_empty_work ret
    (processChain ret (submitReq wq heap w cb data).2
      (submitReq wq heap w cb data).1.work).1 orc
    (show ({ (wq_wait_step (submitReq wq heap w cb data).1
      WaitOutcome.tryOk).1 with work := 0, tail := 0 } : WQ).work = 0
      from rfl)
  refine ⟨?_, ?_, ?_⟩
  · show List.count w (invokeHandles
      ((processChain ret (submitReq wq heap w cb data).2
        (submitReq wq heap w cb data).1.work).2 ++
       (eventfs_wq_main ret _ _ orc).2.2)) = 1
    rw [invokeHandles_append, hpe, invokeHandles_chainEvents ret hch.1, hmi,
      List.append_nil, List.count_append]
    rw [List.count_eq_zero.mpr hwas]
    simp
  · show Event.invoke w cb data (ret cb data) ∈
      (processChain ret (submitReq wq heap w cb data).2
        (submitReq wq heap w cb data).1.work).2 ++
      (eventfs_wq_main ret _ _ orc).2.2
    refine List.mem_append_left _ ?_
    rw [hpe]
    exact chainEvents_mem_invoke ret hch.1
      (List.mem_append_right as (List.mem_cons_self w [])) hget
  · show heapGet (eventfs_wq_main ret _ _ orc).2.1 w = none
    rw [hmh, hph w, if_pos (List.mem_append_right as (List.mem_cons_self w []))]

/-- Witness for C2 at a concrete input: submit address 3 (callback 4,
payload 5) to the live empty queue, wake the worker once. -/
theorem C2_round_trip_witness :
    List.count 3 (invokeHandles
      (eventfs_wq_main retZero (submitReq wqLive [] 3 4 5).1
        (submitReq wqLive [] 3 4 5).2 [WaitOutcome.tryOk]).2.2) = 1 ∧
    Event.invoke 3 4 5 0 ∈
      (eventfs_wq_main retZero (submitReq wqLive [] 3 4 5).1
        (submitReq wqLive [] 3 4 5).2 [WaitOutcome.tryOk]).2.2 :=
  ⟨(C2_round_trip retZero wqLive [] [] 3 4 5 []
      ⟨Chain.nil, List.nodup_nil, rfl⟩ rfl (by decide) (by decide)).1,
   (C2_round_trip retZero wqLive [] [] 3 4 5 []
      ⟨Chain.nil, List.nodup_nil, rfl⟩ rfl (by decide) (by decide)).2.1⟩

/-- C1: FIFO for a single producer.  Over every interleaving of submissions
(fresh, pairwise-distinct addresses) with worker iterations, starting from
an empty chain: the sequence of invoked request handles followed by the
still-pending chain is exactly the submission sequence, so the invocation
sequence is the prefix of the submission sequence of its length — if
request A is enqueued before request B, A's callback is invoked before B's
(enqueue appends at the tail; the worker detaches the chain from the head
and walks it front to back). -/
theorem C1_fifo_single_producer (ret : Nat → Nat → Int) (acts : List Act)
    (wq : WQ) (heap : Heap) (hw : wq.work = 0) (ht : wq.tail = 0)
    (hfresh : ∀ w cb d, Act.submit w cb d ∈ acts →
      w ≠ 0 ∧ w ∉ heapKeys heap)
    (hnd : (submittedAddrs acts).Nodup) :
    ∃ pending,
      WQchain (runActs ret (wq, heap, [], true) acts).1
        (runActs ret (wq, heap, [], true) acts).2.1 pending ∧
      invokeHandles (runActs ret (wq, heap, [], true) acts).2.2.1 ++
        pending = submittedAddrs acts ∧
      invokeHandles (runActs ret (wq, heap, [], true) acts).2.2.1 =
        (submittedAddrs acts).take
          (invokeHandles
            (runActs ret (wq, heap, [], true) acts).2.2.1).length := by
  have hch : WQchain wq heap [] := by
    refine ⟨?_, List.nodup_nil, ?_⟩
    · rw [hw]
      exact Chain.nil
    · rw [ht]
      rfl
  obtain ⟨as', h1, h2, h3⟩ :=
    runActs_fifo_inv ret acts wq heap [] true [] hch hfresh hnd
  have h2' : invokeHandles (runActs ret (wq, heap, [], true) acts).2.2.1 ++
      as' = submittedAddrs acts := by
    simpa [invokeHandles] using h2
  refine ⟨as', h1, h2', ?_⟩
  rw [← h2', List.take_left]

/-- Witness for C1 at a concrete input: submit addresses 1 then 2, then one
worker wakeup. -/
theorem C1_fifo_single_producer_witness :
    ∃ pending,
      WQchain (runActs retZero (wqLive, [], [], true)
          [Act.submit 1 10 100, Act.submit 2 11 101,
           Act.work WaitOutcome.tryOk]).1
        (runActs retZero (wqLive, [], [], true)
          [Act.submit 1 10 100, Act.submit 2 11 101,
           Act.work WaitOutcome.tryOk]).2.1 pending ∧
      invokeHandles (runActs retZero (wqLive, [], [], true)
          [Act.submit 1 10 100, Act.submit 2 11 101,
           Act.work WaitOutcome.tryOk]).2.2.1 ++ pending = [1, 2] ∧
      invokeHandles (runActs retZero (wqLive, [], [], true)
          [Act.submit 1 10 100, Act.submit 2 11 101,
           Act.work WaitOutcome.tryOk]).2.2.1 =
        ([1, 2] : List Nat).take
          (invokeHandles (runActs retZero (wqLive, [], [], true)
            [Act.submit 1 10 100, Act.submit 2 11 101,
             Act.work WaitOutcome.tryOk]).2.2.1).length :=
  C1_fifo_single_producer retZero
    [Act.submit 1 10 100, Act.submit 2 11 101, Act.work WaitOutcome.tryOk]
    wqLive [] rfl rfl
    (by
      intro w cb d hm
      simp only [List.mem_cons, List.not_mem_nil, or_false] at hm
      rcases hm with hm | hm | hm
      · injection hm with h1 h2 h3
        subst h1
        exact ⟨by decide, by simp [heapKeys]⟩
      · injection hm with h1 h2 h3
        subst h1
        exact ⟨by decide, by simp [heapKeys]⟩
      · exact Act.noConfusion hm)
    (by decide)
